import Mathlib

/-!
Verification development for a sudoku-family puzzle generator.

The source program (`sudoku.py`) builds a generalized sudoku `Board` from a
textual template, enumerates complete valid fillings with an explicit-stack
backtracking solver, and "drills" cells out of a solved board while the
solver confirms unique solvability.

Modelling conventions used throughout this file:

* Python dicts (the board's `_filled` mapping) are modelled as association
  lists `List (Coord × Char)` in insertion order; a fresh key is appended at
  the end, exactly like CPython's insertion-ordered dicts.  Map equality is
  expressed through `lookup?` (see `mapEq`), never through list equality.
* Python sets (`symbols`, `all_coords`, the sets inside the template
  compiler) are modelled as duplicate-free lists (`List.dedup` of the
  generating data); only membership, size and iteration are ever used.
* `raise ValueError(...)` / `raise StopIteration` are modelled with
  `Except Err`; each distinct raise site gets its own `Err` constructor.
* The process-wide seeded PRNG (`rand = random.Random(0)` and the `shuffle`
  helper) is modelled abstractly: a state type `R` together with functions
  `shc : R → List Char → List Char × R` (shuffling symbol lists) and
  `shk : R → List Coord → List Coord × R` (shuffling coordinate lists),
  threaded through every operation in call order.  The documented behaviour
  of `random.shuffle` — the output is a permutation of the input — appears
  as the hypothesis `∀ r l, (sh r l).1.Perm l` on theorems that need it.
* The two generator functions (`backtrack_solutions`, and the search loop of
  `drill_board`) are written with an explicit fuel argument; the fuel passed
  by the wrappers is computed from a termination measure and is proved
  sufficient, so the `Err.outOfFuel` branch is unreachable there.  Each
  `while backlog:` deque loop becomes structural recursion on the fuel, with
  the head of the Lean list playing the role of the right end of the deque
  (`deque.pop` pops from the right, `deque.extend`/`append` push there).
* The generators are evaluated eagerly (Python consumes them lazily); the
  produced lists of boards are identical, only the point at which the PRNG
  state advances differs, and no theorem below depends on a specific PRNG
  state.
-/

namespace Sudoku

/-- Error conditions of the program.  Python raises `ValueError` with a
formatted message at each of these sites (plus `StopIteration` from `next`);
we give each raise site its own constructor. -/
inductive Err : Type
  | coordinateAlreadyFilled
  | coordinateOutOfBoard
  | invalidSymbol
  | coordinateNotFilled
  | duplicateCoordinate
  | inconsistentRowWidth
  | reservedGlyphInTemplate
  | segmentOverlap
  | segmentCoverageMismatch
  | segmentTooLong
  | stopIteration
  | outOfFuel
deriving DecidableEq

instance {ε α : Type} [DecidableEq ε] [DecidableEq α] : DecidableEq (Except ε α) := fun a b =>
  match a, b with
  | .error x, .error y =>
    if h : x = y then isTrue (by rw [h]) else isFalse (fun hh => by cases hh; exact h rfl)
  | .error _, .ok _ => isFalse (fun hh => by cases hh)
  | .ok _, .error _ => isFalse (fun hh => by cases hh)
  | .ok x, .ok y =>
    if h : x = y then isTrue (by rw [h]) else isFalse (fun hh => by cases hh; exact h rfl)

/-- `EMPTY_FIELD = '.'`: a placeholder in the template that is not part of
the board. -/
def EMPTY_FIELD : Char := '.'

/-- `UNKNOWN_FIELD = '-'`: value of an unfilled in-play field. -/
def UNKNOWN_FIELD : Char := '-'

/-- A field coordinate `(i_row, i_col)`. -/
abbrev Coord : Type := Nat × Nat

/-- Lexicographic order on coordinates, the order Python's `sorted` uses on
pairs of ints. -/
def coordLe (a b : Coord) : Prop := a.1 < b.1 ∨ (a.1 = b.1 ∧ a.2 ≤ b.2)

instance : DecidableRel coordLe := fun a b => by
  unfold coordLe; infer_instance

/-- `sorted(next_keys)[0]`: the lexicographic minimum of `x :: xs`. -/
def min_coord (x : Coord) (xs : List Coord) : Coord :=
  xs.foldl (fun m c => if coordLe c m then c else m) x

/-- Dict lookup on an association list (first matching key). -/
def lookup? (l : List (Coord × Char)) (c : Coord) : Option Char :=
  match l with
  | [] => none
  | p :: ps => if p.1 = c then some p.2 else lookup? ps c

/-- The keys of an association list, in insertion order (`dict.keys()`). -/
def keysOf (l : List (Coord × Char)) : List Coord := l.map Prod.fst

/-- `del d[c]` on an association list: remove the first entry with key `c`. -/
def removeKey (l : List (Coord × Char)) (c : Coord) : List (Coord × Char) :=
  match l with
  | [] => []
  | p :: ps => if p.1 = c then ps else p :: removeKey ps c

/-- Extensional equality of the finite maps denoted by two association
lists; Python `dict` equality. -/
def mapEq (f g : List (Coord × Char)) : Prop := ∀ c, lookup? f c = lookup? g c

/-- A `Segment` is a collection of coordinates of fields that must hold
pairwise distinct symbols.  The Python constructor validates that no
coordinate repeats; `mkSegment` below models the validating constructor. -/
structure Segment : Type where
  coords : List Coord
deriving DecidableEq

/-- `Segment.__init__`, including `_validate`: fails on a duplicated
coordinate. -/
def mkSegment (coords : List Coord) : Except Err Segment :=
  if coords.Nodup then .ok ⟨coords⟩ else .error .duplicateCoordinate

/-- Set of all coordinates of all the segments
(`Board._get_all_coords_from_segments`); a Python `set`, modelled as a
duplicate-free list. -/
def all_coords_of (segments : List Segment) : List Coord :=
  ((segments.map Segment.coords).flatten).dedup

/-- The board: dimensions, segments, symbol alphabet (a set), the set of
in-play coordinates, and the mapping of filled coordinates to symbols. -/
structure Board : Type where
  height : Nat
  width : Nat
  segments : List Segment
  symbols : List Char
  all_coords : List Coord
  filled : List (Coord × Char)
deriving DecidableEq

/-- `Board.__init__` as called with `all_coords=None, filled=None`:
`symbols = set(symbols)` and `all_coords` derived from the segments. -/
def mkBoard (height width : Nat) (segments : List Segment) (symbols : List Char) : Board :=
  ⟨height, width, segments, symbols.dedup, all_coords_of segments, []⟩

namespace Board

/-- `get_area`. -/
def get_area (b : Board) : Nat := b.width * b.height

/-- `get_filled_fields`: the keys of the `filled` dict. -/
def get_filled_fields (b : Board) : List Coord := keysOf b.filled

/-- `is_full`: all fields filled (`len(all_coords) == len(filled)`). -/
def is_full (b : Board) : Bool := b.all_coords.length == b.filled.length

/-- The inner loop of `_is_segment_valid`: walk the segment's coordinates
keeping the set of symbols seen so far, failing on a repeat. -/
def seg_valid_go (filled : List (Coord × Char)) : List Coord → List Char → Bool
  | [], _ => true
  | c :: cs, seen =>
    match lookup? filled c with
    | none => seg_valid_go filled cs seen
    | some s => if s ∈ seen then false else seg_valid_go filled cs (s :: seen)

/-- `_is_segment_valid`. -/
def is_segment_valid (b : Board) (seg : Segment) : Bool :=
  seg_valid_go b.filled seg.coords []

/-- `is_valid`: no repeated symbol in any segment. -/
def is_valid (b : Board) : Bool :=
  b.segments.all (fun seg => b.is_segment_valid seg)

/-- `_copy_and_set`: copy the board, setting `symbol` at `coord`; raises on
an already-filled coordinate, a coordinate off the board, or a symbol
outside the alphabet.  (The Python name starts with an underscore.) -/
def copy_and_set (b : Board) (coord : Coord) (symbol : Char) : Except Err Board :=
  if (lookup? b.filled coord).isSome then .error .coordinateAlreadyFilled
  else if coord ∉ b.all_coords then .error .coordinateOutOfBoard
  else if symbol ∉ b.symbols then .error .invalidSymbol
  else .ok { b with filled := b.filled ++ [(coord, symbol)] }

/-- `copy_and_remove`: copy the board, removing the symbol at `coord`;
raises if the coordinate is not filled. -/
def copy_and_remove (b : Board) (coord : Coord) : Except Err Board :=
  if (lookup? b.filled coord).isSome then .ok { b with filled := removeKey b.filled coord }
  else .error .coordinateNotFilled

/-- The unfilled in-play coordinates, `all_coords - filled.keys()`
(`next_keys` in `iter_next_boards`). -/
def next_keys (b : Board) : List Coord :=
  b.all_coords.filter (fun c => (lookup? b.filled c).isNone)

end Board

/-- Number of unfilled in-play coordinates; the recursion depth bound of the
solver. -/
def unfilled (b : Board) : Nat := b.next_keys.length

/-- Evaluate an `Except`-valued function over a list, propagating the first
error: the eager consumption (`deque.extend`) of a generator whose `yield`ed
expressions may raise. -/
def mapExcept {α β : Type} (f : α → Except Err β) : List α → Except Err (List β)
  | [] => .ok []
  | a :: as =>
    match f a with
    | .error e => .error e
    | .ok b =>
      match mapExcept f as with
      | .error e => .error e
      | .ok bs => .ok (b :: bs)

/-! ### Template compiler

`template_to_grid` receives the template already split into lines (the
`template.split('\n')` of the source applied to the template string); each
line is a list of characters.  `str.strip()` is modelled by `trimChars`. -/

/-- ASCII whitespace stripped by `str.strip()`. -/
def isSpaceChar (c : Char) : Bool :=
  c = ' ' ∨ c = '\t' ∨ c = '\n' ∨ c = '\r' ∨ c = '\x0b' ∨ c = '\x0c'

/-- `str.strip()` on a line of characters. -/
def trimChars (l : List Char) : List Char :=
  ((l.dropWhile isSpaceChar).reverse.dropWhile isSpaceChar).reverse

/-- `grid[(i_row, i_col)]`: the grid dict maps `(i, j)` to the `j`-th
character of the `i`-th stripped line; the defaults are never reached for
`i < height`, `j < width` after width validation. -/
def grid_get (grid : List (List Char)) (i j : Nat) : Char :=
  (grid.getD i []).getD j EMPTY_FIELD

/-- `template_to_grid`: strip and drop blank lines, require all rows to have
one common length, and return height, width and the grid. -/
def template_to_grid (template : List (List Char)) :
    Except Err (Nat × Nat × List (List Char)) :=
  let lines := (template.map trimChars).filter (fun l => l ≠ [])
  match (lines.map List.length).dedup with
  | [w] => .ok (lines.length, w, lines)
  | _ => .error .inconsistentRowWidth

/-- The loop of `iter_disjoint_indices`: `EMPTY_FIELD` breaks the current
run of indices; a non-empty run is emitted at each break and after the end.
(Python keeps the run in a `set`; the indices are added in strictly
increasing order, so a list in insertion order denotes the same set.) -/
def disjoint_indices_go : List (Nat × Char) → List Nat → List (List Nat)
  | [], cur => if cur = [] then [] else [cur]
  | (i, c) :: rest, cur =>
    if c = EMPTY_FIELD then
      if cur = [] then disjoint_indices_go rest []
      else cur :: disjoint_indices_go rest []
    else disjoint_indices_go rest (cur ++ [i])

/-- `iter_disjoint_indices`. -/
def iter_disjoint_indices (line : List Char) : List (List Nat) :=
  disjoint_indices_go line.enum []

/-- The coordinate lists of the row segments: one per maximal run of
non-empty glyphs in each row. -/
def row_coord_lists (height width : Nat) (grid : List (List Char)) : List (List Coord) :=
  (List.range height).map (fun i =>
    (iter_disjoint_indices ((List.range width).map (fun j => grid_get grid i j))).map
      (fun idxs => idxs.map (fun j => (i, j)))) |>.flatten

/-- `iter_segments_for_rows` (the `Segment` constructor validates each). -/
def iter_segments_for_rows (height width : Nat) (grid : List (List Char)) :
    Except Err (List Segment) :=
  mapExcept mkSegment (row_coord_lists height width grid)

/-- The coordinate lists of the column segments. -/
def col_coord_lists (height width : Nat) (grid : List (List Char)) : List (List Coord) :=
  (List.range width).map (fun j =>
    (iter_disjoint_indices ((List.range height).map (fun i => grid_get grid i j))).map
      (fun idxs => idxs.map (fun i => (i, j)))) |>.flatten

/-- `iter_segments_for_cols`. -/
def iter_segments_for_cols (height width : Nat) (grid : List (List Char)) :
    Except Err (List Segment) :=
  mapExcept mkSegment (col_coord_lists height width grid)

/-- `defaultdict(list)` keyed by glyph, in first-occurrence key order with
coordinates appended in traversal order (Python 3.6 dicts preserve insertion
order). -/
def glyph_add (acc : List (Char × List Coord)) (c : Char) (ij : Coord) :
    List (Char × List Coord) :=
  match acc with
  | [] => [(c, [ij])]
  | (k, v) :: t => if k = c then (k, v ++ [ij]) :: t else (k, v) :: glyph_add t c ij

/-- The grouping loop of `iter_segments_for_symbols` over the row-major
product of coordinates: skip `EMPTY_FIELD`, reject a literal
`UNKNOWN_FIELD`, and group every other glyph. -/
def glyph_groups (grid : List (List Char)) :
    List Coord → List (Char × List Coord) → Except Err (List (Char × List Coord))
  | [], acc => .ok acc
  | ij :: rest, acc =>
    let c := grid_get grid ij.1 ij.2
    if c = EMPTY_FIELD then glyph_groups grid rest acc
    else if c = UNKNOWN_FIELD then .error .reservedGlyphInTemplate
    else glyph_groups grid rest (glyph_add acc c ij)

/-- `itertools.product(range(height), range(width))` in row-major order. -/
def coord_product (height width : Nat) : List Coord :=
  (List.range height).map (fun i => (List.range width).map (fun j => (i, j))) |>.flatten

/-- `iter_segments_for_symbols`: one segment per distinct non-empty glyph. -/
def iter_segments_for_symbols (height width : Nat) (grid : List (List Char)) :
    Except Err (List Segment) :=
  match glyph_groups grid (coord_product height width) [] with
  | .error e => .error e
  | .ok groups => mapExcept (fun g => mkSegment g.2) groups

/-- `flatten_and_validate_segments`: union the coordinate sets of the
segments, failing on any overlap between segments of one scheme. -/
def flatten_validate_go : List Segment → List Coord → Except Err (List Coord)
  | [], acc => .ok acc
  | seg :: rest, acc =>
    if seg.coords.any (fun c => c ∈ acc) then .error .segmentOverlap
    else flatten_validate_go rest (acc ++ seg.coords)

/-- `flatten_and_validate_segments`. -/
def flatten_and_validate_segments (segments : List Segment) : Except Err (List Coord) :=
  flatten_validate_go segments []

/-- `validate_two_segments`: two segmentation schemes must cover the same
coordinate set (the `odds` below is their symmetric difference). -/
def validate_two_segments (a b : List Segment) : Except Err Unit :=
  match flatten_and_validate_segments a with
  | .error e => .error e
  | .ok ca =>
    match flatten_and_validate_segments b with
    | .error e => .error e
    | .ok cb =>
      let odds := ca.filter (fun c => c ∉ cb) ++ cb.filter (fun c => c ∉ ca)
      if odds = [] then .ok () else .error .segmentCoverageMismatch

/-- `validate_segments_length`: no segment longer than the symbol list. -/
def validate_segments_length (segments : List Segment) (symbols : List Char) :
    Except Err Unit :=
  if segments.any (fun seg => symbols.length < seg.coords.length) then
    .error .segmentTooLong
  else .ok ()

/-- `board_from_template`: compile the template into a board whose segments
are the row, column and glyph-group segments, cross-validated. -/
def board_from_template (template : List (List Char)) (symbols : List Char) :
    Except Err Board :=
  match template_to_grid template with
  | .error e => .error e
  | .ok (height, width, grid) =>
    match iter_segments_for_rows height width grid with
    | .error e => .error e
    | .ok segments_rows =>
      match iter_segments_for_cols height width grid with
      | .error e => .error e
      | .ok segments_cols =>
        match validate_two_segments segments_rows segments_cols with
        | .error e => .error e
        | .ok _ =>
          match iter_segments_for_symbols height width grid with
          | .error e => .error e
          | .ok segments_symbols =>
            match validate_two_segments segments_symbols segments_rows with
            | .error e => .error e
            | .ok _ =>
              match validate_two_segments segments_symbols segments_cols with
              | .error e => .error e
              | .ok _ =>
                let all_segments := segments_rows ++ segments_cols ++ segments_symbols
                match validate_segments_length all_segments symbols with
                | .error e => .error e
                | .ok _ => .ok (mkBoard height width all_segments symbols)

section Search

/- The PRNG model: `R` is the hidden state of the process-wide
`random.Random(0)` instance; `shc`/`shk` model the `shuffle` helper on lists
of symbols and of coordinates respectively, returning the shuffled list and
the advanced state. -/
variable {R : Type} (shc : R → List Char → List Char × R) (shk : R → List Coord → List Coord × R)

/-- `Board.iter_next_boards`: boards with the smallest unfilled coordinate
filled by each symbol of the (shuffled) alphabet; empty when the board has
no unfilled in-play coordinate.  A `ValueError` raised by `_copy_and_set`
propagates (it cannot fire here: the coordinate is unfilled and on the
board, and — whenever the shuffle permutes its input — the symbol is in the
alphabet; see `iter_next_boards_ok`). -/
def iter_next_boards (r : R) (b : Board) : Except Err (List Board × R) :=
  match b.next_keys with
  | [] => .ok ([], r)
  | k :: ks =>
    match mapExcept (fun s => b.copy_and_set (min_coord k ks) s) (shc r b.symbols).1 with
    | .error e => .error e
    | .ok boards => .ok (boards, (shc r b.symbols).2)

/-- Termination measure of one solver backlog entry: `children` of a board
replace it by at most `|symbols|` boards with one more filled field each. -/
def bmeasure (b : Board) : Nat := (b.symbols.length + 1) ^ unfilled b

/-- Termination measure of a whole solver backlog. -/
def backlog_measure (L : List Board) : Nat := (L.map bmeasure).sum

/-- The `while backlog:` loop of `backtrack_solutions`.  The head of the
list is the right end of the deque; an invalid board is discarded, a full
board is yielded, and the "next" boards are pushed.  (The dead local
`signature = str(board)` of the source is omitted.)  The fuel argument makes
the recursion structural; `backtrack_solutions` passes provably sufficient
fuel (`backtrack_loop_ok`). -/
def backtrack_loop : Nat → R → List Board → Except Err (List Board × R)
  | _, r, [] => .ok ([], r)
  | 0, _, _ :: _ => .error .outOfFuel
  | fuel + 1, r, b :: rest =>
    if b.is_valid then
      match iter_next_boards shc r b with
      | .error e => .error e
      | .ok (children, r') =>
        match backtrack_loop fuel r' (children.reverse ++ rest) with
        | .error e => .error e
        | .ok (out, r'') => .ok ((if b.is_full then [b] else []) ++ out, r'')
    else backtrack_loop fuel r rest

/-- Number of iterations (`backlog.pop()` executions) the solver loop makes;
same recursion as `backtrack_loop`. -/
def backtrack_iters : Nat → R → List Board → Nat
  | _, _, [] => 0
  | 0, _, _ :: _ => 0
  | fuel + 1, r, b :: rest =>
    if b.is_valid then
      match iter_next_boards shc r b with
      | .error _ => 1
      | .ok (children, r') => 1 + backtrack_iters fuel r' (children.reverse ++ rest)
    else 1 + backtrack_iters fuel r rest

/-- `backtrack_solutions`: all complete boards reachable from
`initial_board` by filling empty fields, in search order. -/
def backtrack_solutions (r : R) (initial_board : Board) : Except Err (List Board × R) :=
  backtrack_loop shc (backlog_measure [initial_board]) r [initial_board]

/-- `has_unique_solution`: take one solution from the sequence — `next(it)`
raises `StopIteration` if there is none, and the raise is NOT caught — then
probe for a second, whose absence (the caught `StopIteration`) means the
solution is unique. -/
def has_unique_solution (r : R) (board : Board) : Except Err (Bool × R) :=
  match backtrack_solutions shc r board with
  | .error e => .error e
  | .ok ([], _) => .error .stopIteration
  | .ok ([_], r') => .ok (true, r')
  | .ok (_ :: _ :: _, r') => .ok (false, r')

/-- `float(len(board.get_filled_fields())) / board.get_area()`: the fill
ratio, as an exact rational.  Written with `mkRat` (the same rational as the
cast quotient, see `fillness_eq_div`) so that concrete drilling runs can be
evaluated by the kernel. -/
def fillness (b : Board) : ℚ := mkRat b.filled.length b.get_area

/-- The fill ratio is the quotient of filled-cell count by area. -/
theorem fillness_eq_div (b : Board) :
    fillness b = (b.filled.length : ℚ) / (b.get_area : ℚ) := by
  unfold fillness
  rw [Rat.mkRat_eq_divInt, Rat.divInt_eq_div]
  norm_num

/-- Termination measure of one drilling backlog entry: a board with `n`
filled fields is replaced by `n` boards with `n - 1` filled fields each. -/
def dmeasure (b : Board) : Nat := Nat.factorial (b.filled.length + 1)

/-- Termination measure of a whole drilling backlog. -/
def dbacklog_measure (L : List Board) : Nat := (L.map dmeasure).sum

/-- The `while backlog:` loop of `drill_board`: pop a board, discard it if
its solution is not unique (a zero-solution board propagates the
`StopIteration` of `has_unique_solution`), record it as the minimal board if
it strictly improves on the current one — returning it at once if, in
addition, its fill ratio is at or below the cutoff — and push a copy with
each filled field removed, in shuffled order.  (The progress `log` call of
the source is output only and is omitted.)  Fuel as in `backtrack_loop`. -/
def drill_loop : Nat → R → List Board → Board → ℚ → Except Err (Board × R)
  | _, r, [], min_board, _ => .ok (min_board, r)
  | 0, _, _ :: _, _, _ => .error .outOfFuel
  | fuel + 1, r, board :: rest, min_board, cutoff =>
    match has_unique_solution shc r board with
    | .error e => .error e
    | .ok (false, r') => drill_loop fuel r' rest min_board cutoff
    | .ok (true, r') =>
      if board.filled.length < min_board.filled.length ∧ fillness board ≤ cutoff then
        .ok (board, r')
      else
        let min_board' :=
          if board.filled.length < min_board.filled.length then board else min_board
        let p := shk r' board.get_filled_fields
        match mapExcept (fun c => board.copy_and_remove c) p.1 with
        | .error e => .error e
        | .ok children => drill_loop fuel p.2 (children.reverse ++ rest) min_board' cutoff

/-- `drill_board`: remove fields from `initial_board` while the solution
stays unique, until the fill ratio reaches `cutoff` or the search space is
exhausted. -/
def drill_board (r : R) (initial_board : Board) (cutoff : ℚ) : Except Err (Board × R) :=
  drill_loop shc shk (dbacklog_measure [initial_board]) r [initial_board] initial_board cutoff

/-- The generation pipeline of `main` (template already parsed into lines):
compile the board, take the first solution — `next` raises `StopIteration`
if there is none — and drill it.  Exercised by the determinism claim. -/
def generate (r : R) (template : List (List Char)) (symbols : List Char) (cutoff : ℚ) :
    Except Err (Board × R) :=
  match board_from_template template symbols with
  | .error e => .error e
  | .ok b0 =>
    match backtrack_solutions shc r b0 with
    | .error e => .error e
    | .ok ([], _) => .error .stopIteration
    | .ok (first :: _, r') => drill_board shc shk r' first cutoff

end Search

/-! ### Association-list (dict) lemmas -/

/-- Keys of an association list are duplicate-free; automatic for a Python
dict. -/
def keysNodup (l : List (Coord × Char)) : Prop := (keysOf l).Nodup

theorem lookup?_append_some {l l2 : List (Coord × Char)} {c : Coord} {v : Char}
    (h : lookup? l c = some v) : lookup? (l ++ l2) c = some v := by
  induction l with
  | nil => simp [lookup?] at h
  | cons p ps ih =>
    by_cases hp : p.1 = c
    · simpa [lookup?, hp] using h
    · simp only [lookup?, hp, if_false] at h ⊢
      simpa [lookup?, hp] using ih h

theorem lookup?_append_none {l l2 : List (Coord × Char)} {c : Coord}
    (h : lookup? l c = none) : lookup? (l ++ l2) c = lookup? l2 c := by
  induction l with
  | nil => simp [lookup?]
  | cons p ps ih =>
    by_cases hp : p.1 = c
    · simp [lookup?, hp] at h
    · simp only [lookup?, hp, if_false] at h ⊢
      simpa [lookup?, hp] using ih h

theorem lookup?_eq_none_iff {l : List (Coord × Char)} {c : Coord} :
    lookup? l c = none ↔ c ∉ keysOf l := by
  induction l with
  | nil => simp [lookup?, keysOf]
  | cons p ps ih =>
    by_cases hp : p.1 = c
    · simp [lookup?, hp, keysOf]
    · simp [lookup?, hp, keysOf, ih, Ne.symm hp]

theorem lookup?_isSome_iff {l : List (Coord × Char)} {c : Coord} :
    (lookup? l c).isSome ↔ c ∈ keysOf l := by
  constructor
  · intro h
    by_contra hc
    rw [← lookup?_eq_none_iff] at hc
    rw [hc] at h
    simp at h
  · intro h
    cases hl : lookup? l c with
    | some v => simp
    | none => exact absurd (lookup?_eq_none_iff.mp hl) (by simp [h])

theorem lookup?_mem {l : List (Coord × Char)} {c : Coord} {v : Char}
    (h : lookup? l c = some v) : (c, v) ∈ l := by
  induction l with
  | nil => simp [lookup?] at h
  | cons p ps ih =>
    obtain ⟨a, b⟩ := p
    by_cases hp : a = c
    · simp only [lookup?, hp, if_true, Option.some.injEq] at h
      subst hp
      subst h
      exact List.mem_cons_self _ _
    · simp only [lookup?, hp, if_false] at h
      exact List.mem_cons_of_mem _ (ih h)

theorem mem_lookup? {l : List (Coord × Char)} {c : Coord} {v : Char}
    (hnd : keysNodup l) (h : (c, v) ∈ l) : lookup? l c = some v := by
  induction l with
  | nil => simp at h
  | cons p ps ih =>
    rcases List.mem_cons.mp h with h1 | h1
    · simp [lookup?, ← h1]
    · have hpc : p.1 ≠ c := by
        intro hpc
        have : c ∈ keysOf ps := List.mem_map.mpr ⟨(c, v), h1, rfl⟩
        have := (List.nodup_cons.mp hnd).1
        rw [hpc] at this
        exact this (by simpa [keysOf] using ‹c ∈ keysOf ps›)
      have : keysNodup ps := (List.nodup_cons.mp hnd).2
      simp [lookup?, hpc, ih this h1]

theorem removeKey_lookup_ne {l : List (Coord × Char)} {c k : Coord} (h : k ≠ c) :
    lookup? (removeKey l c) k = lookup? l k := by
  induction l with
  | nil => rfl
  | cons p ps ih =>
    simp only [removeKey]
    by_cases hp : p.1 = c
    · rw [if_pos hp]
      have hpk : p.1 ≠ k := by rw [hp]; exact Ne.symm h
      have h2 : lookup? (p :: ps) k = lookup? ps k := by simp [lookup?, hpk]
      rw [h2]
    · rw [if_neg hp]
      by_cases hk : p.1 = k
      · simp [lookup?, hk]
      · simp [lookup?, hk, ih]

theorem removeKey_lookup_self {l : List (Coord × Char)} {c : Coord}
    (hnd : keysNodup l) : lookup? (removeKey l c) c = none := by
  induction l with
  | nil => simp [removeKey, lookup?]
  | cons p ps ih =>
    by_cases hp : p.1 = c
    · simp only [removeKey, hp, if_true]
      rw [lookup?_eq_none_iff]
      rw [← hp]
      exact (List.nodup_cons.mp hnd).1
    · simp only [removeKey, hp, if_false, lookup?, if_false]
      exact ih (List.nodup_cons.mp hnd).2

theorem removeKey_subset {l : List (Coord × Char)} {c : Coord} :
    ∀ p ∈ removeKey l c, p ∈ l := by
  induction l with
  | nil => simp [removeKey]
  | cons q qs ih =>
    intro p hp
    by_cases hq : q.1 = c
    · simp only [removeKey, hq, if_true] at hp
      exact List.mem_cons_of_mem _ hp
    · simp only [removeKey, hq, if_false] at hp
      rcases List.mem_cons.mp hp with h1 | h1
      · exact h1 ▸ List.mem_cons_self _ _
      · exact List.mem_cons_of_mem _ (ih p h1)

theorem keysOf_removeKey_sublist {l : List (Coord × Char)} {c : Coord} :
    (keysOf (removeKey l c)).Sublist (keysOf l) := by
  induction l with
  | nil => simp [removeKey]
  | cons q qs ih =>
    by_cases hq : q.1 = c
    · simp only [removeKey, hq, if_true, keysOf, List.map_cons]
      exact List.sublist_cons_of_sublist _ (List.Sublist.refl _)
    · simp only [removeKey, hq, if_false, keysOf, List.map_cons]
      exact List.Sublist.cons₂ _ ih

theorem removeKey_keysNodup {l : List (Coord × Char)} {c : Coord}
    (hnd : keysNodup l) : keysNodup (removeKey l c) :=
  List.Nodup.sublist keysOf_removeKey_sublist hnd

theorem removeKey_length {l : List (Coord × Char)} {c : Coord}
    (h : (lookup? l c).isSome) : (removeKey l c).length + 1 = l.length := by
  induction l with
  | nil => simp [lookup?] at h
  | cons p ps ih =>
    by_cases hp : p.1 = c
    · simp [removeKey, hp]
    · simp only [lookup?, hp, if_false] at h
      simp [removeKey, hp, ih h]

theorem keysOf_append_single {l : List (Coord × Char)} {c : Coord} {s : Char} :
    keysOf (l ++ [(c, s)]) = keysOf l ++ [c] := by
  simp [keysOf]

/-! ### Shape, submap and well-formedness predicates -/

/-- The immutable part of a board shared by all its search descendants. -/
def SameShape (a b : Board) : Prop :=
  a.height = b.height ∧ a.width = b.width ∧ a.segments = b.segments ∧
    a.symbols = b.symbols ∧ a.all_coords = b.all_coords

theorem SameShape_refl (b : Board) : SameShape b b := by
  exact ⟨rfl, rfl, rfl, rfl, rfl⟩

theorem SameShape_trans {a b c : Board} (h1 : SameShape a b) (h2 : SameShape b c) :
    SameShape a c := by
  obtain ⟨x1, x2, x3, x4, x5⟩ := h1
  obtain ⟨y1, y2, y3, y4, y5⟩ := h2
  exact ⟨x1.trans y1, x2.trans y2, x3.trans y3, x4.trans y4, x5.trans y5⟩

theorem SameShape_symm {a b : Board} (h : SameShape a b) : SameShape b a := by
  obtain ⟨x1, x2, x3, x4, x5⟩ := h
  exact ⟨x1.symm, x2.symm, x3.symm, x4.symm, x5.symm⟩

/-- `f` is a sub-map of `g`: every filled entry of `f` is filled identically
in `g`. -/
def Submap (f g : List (Coord × Char)) : Prop :=
  ∀ c v, lookup? f c = some v → lookup? g c = some v

theorem Submap_refl (f : List (Coord × Char)) : Submap f f := fun _ _ h => h

theorem Submap_trans {f g h : List (Coord × Char)} (h1 : Submap f g) (h2 : Submap g h) :
    Submap f h := fun c v hh => h2 c v (h1 c v hh)

theorem mapEq_refl (f : List (Coord × Char)) : mapEq f f := fun _ => rfl

theorem mapEq_symm {f g : List (Coord × Char)} (h : mapEq f g) : mapEq g f :=
  fun c => (h c).symm

theorem mapEq_trans {f g h : List (Coord × Char)} (h1 : mapEq f g) (h2 : mapEq g h) :
    mapEq f h := fun c => (h1 c).trans (h2 c)

/-- Well-formedness invariant of every board the Python program can build:
the symbol and coordinate sets are sets, the filled mapping is a dict, and
`filled` maps in-play coordinates to alphabet symbols (the claimed data
invariant). -/
def WF (b : Board) : Prop :=
  b.symbols.Nodup ∧ b.all_coords.Nodup ∧ keysNodup b.filled ∧
    ∀ p ∈ b.filled, p.1 ∈ b.all_coords ∧ p.2 ∈ b.symbols

instance : DecidablePred WF := fun b => by
  unfold WF keysNodup
  infer_instance

/-! ### Board operation lemmas -/

theorem copy_and_set_eq_ok {b : Board} {c : Coord} {s : Char}
    (h1 : lookup? b.filled c = none) (h2 : c ∈ b.all_coords) (h3 : s ∈ b.symbols) :
    b.copy_and_set c s = .ok { b with filled := b.filled ++ [(c, s)] } := by
  simp [Board.copy_and_set, h1, h2, h3]

theorem copy_and_set_ok_inv {b b' : Board} {c : Coord} {s : Char}
    (h : b.copy_and_set c s = .ok b') :
    lookup? b.filled c = none ∧ c ∈ b.all_coords ∧ s ∈ b.symbols ∧
      b' = { b with filled := b.filled ++ [(c, s)] } := by
  unfold Board.copy_and_set at h
  by_cases h1 : (lookup? b.filled c).isSome
  · simp [h1] at h
  · by_cases h2 : c ∈ b.all_coords
    · by_cases h3 : s ∈ b.symbols
      · refine ⟨?_, h2, h3, ?_⟩
        · cases hl : lookup? b.filled c with
          | none => rfl
          | some v => rw [hl] at h1; simp at h1
        · simp [h1, h2, h3] at h
          exact h.symm
      · simp [h1, h2, h3] at h
    · simp [h1, h2] at h

theorem copy_and_remove_eq_ok {b : Board} {c : Coord}
    (h : (lookup? b.filled c).isSome) :
    b.copy_and_remove c = .ok { b with filled := removeKey b.filled c } := by
  simp [Board.copy_and_remove, h]

theorem copy_and_remove_ok_inv {b b' : Board} {c : Coord}
    (h : b.copy_and_remove c = .ok b') :
    (lookup? b.filled c).isSome ∧ b' = { b with filled := removeKey b.filled c } := by
  unfold Board.copy_and_remove at h
  by_cases h1 : (lookup? b.filled c).isSome
  · simp [h1] at h
    exact ⟨h1, h.symm⟩
  · simp [h1] at h

theorem mem_next_keys {b : Board} {c : Coord} :
    c ∈ b.next_keys ↔ c ∈ b.all_coords ∧ lookup? b.filled c = none := by
  unfold Board.next_keys
  rw [List.mem_filter]
  constructor
  · rintro ⟨h1, h2⟩
    refine ⟨h1, ?_⟩
    cases hl : lookup? b.filled c with
    | none => rfl
    | some v => rw [hl] at h2; simp at h2
  · rintro ⟨h1, h2⟩
    exact ⟨h1, by rw [h2]; rfl⟩

theorem min_coord_mem (x : Coord) (xs : List Coord) : min_coord x xs ∈ x :: xs := by
  unfold min_coord
  induction xs generalizing x with
  | nil => simp
  | cons y ys ih =>
    simp only [List.foldl_cons]
    by_cases h : coordLe y x
    · rw [if_pos h]
      rcases List.mem_cons.mp (ih y) with h1 | h1
      · rw [h1]; simp
      · simp [h1]
    · rw [if_neg h]
      rcases List.mem_cons.mp (ih x) with h1 | h1
      · rw [h1]; simp
      · simp [h1]

/-- Looking up in a dict extended with a fresh key. -/
theorem lookup?_set {f : List (Coord × Char)} {nf : Coord} {s : Char}
    (hnf : lookup? f nf = none) (c : Coord) :
    lookup? (f ++ [(nf, s)]) c = if c = nf then some s else lookup? f c := by
  by_cases hc : c = nf
  · subst hc
    rw [if_pos rfl, lookup?_append_none hnf]
    simp [lookup?]
  · rw [if_neg hc]
    cases hl : lookup? f c with
    | some v => exact lookup?_append_some hl
    | none =>
      rw [lookup?_append_none hl]
      simp only [lookup?]
      rw [if_neg (Ne.symm hc)]

/-- The unfilled coordinates of a board with one more field filled: the
freshly filled coordinate drops out, nothing else changes. -/
theorem next_keys_after_set {b : Board} {nf : Coord} {s : Char}
    (hnf : lookup? b.filled nf = none) :
    (Board.next_keys { b with filled := b.filled ++ [(nf, s)] }) =
      b.next_keys.filter (fun c => c ≠ nf) := by
  show b.all_coords.filter _ = (b.all_coords.filter _).filter _
  rw [List.filter_filter]
  apply List.filter_congr
  intro c _
  show (lookup? (b.filled ++ [(nf, s)]) c).isNone = _
  rw [lookup?_set hnf]
  by_cases hc : c = nf
  · subst hc
    simp
  · simp [hc]

theorem length_filter_ne_lt {l : List Coord} {a : Coord} (h : a ∈ l) :
    ((l.filter (fun c => c ≠ a)).length) + 1 ≤ l.length := by
  induction l with
  | nil => simp at h
  | cons x xs ih =>
    simp only [List.filter_cons, List.length_cons]
    by_cases hxa : x = a
    · have h1 : (decide (x ≠ a)) = false := by simp [hxa]
      rw [h1]
      simp only [Bool.false_eq_true, if_false]
      have := List.length_filter_le (fun c => decide (c ≠ a)) xs
      omega
    · have h1 : (decide (x ≠ a)) = true := by simp [hxa]
      rw [h1]
      simp only [if_true, List.length_cons]
      rcases List.mem_cons.mp h with h2 | h2
      · exact absurd h2.symm hxa
      · have := ih h2
        omega

/-! ### mapExcept lemmas -/

theorem mapExcept_eq_map {α β : Type} {f : α → Except Err β} {g : α → β} {l : List α}
    (h : ∀ a ∈ l, f a = .ok (g a)) : mapExcept f l = .ok (l.map g) := by
  induction l with
  | nil => rfl
  | cons a as ih =>
    have ha := h a (List.mem_cons_self _ _)
    have has : ∀ x ∈ as, f x = .ok (g x) := fun x hx => h x (List.mem_cons_of_mem _ hx)
    simp [mapExcept, ha, ih has]

theorem mapExcept_ok_length {α β : Type} {f : α → Except Err β} {l : List α}
    {bs : List β} (h : mapExcept f l = .ok bs) : bs.length = l.length := by
  induction l generalizing bs with
  | nil =>
    simp only [mapExcept, Except.ok.injEq] at h
    subst h
    rfl
  | cons a as ih =>
    simp only [mapExcept] at h
    cases hfa : f a with
    | error e => rw [hfa] at h; simp at h
    | ok b =>
      rw [hfa] at h
      cases hrest : mapExcept f as with
      | error e => rw [hrest] at h; simp at h
      | ok bs' =>
        rw [hrest] at h
        simp only [Except.ok.injEq] at h
        subst h
        simp [ih hrest]

theorem mapExcept_ok_mem {α β : Type} {f : α → Except Err β} {l : List α}
    {bs : List β} (h : mapExcept f l = .ok bs) :
    ∀ b ∈ bs, ∃ a ∈ l, f a = .ok b := by
  induction l generalizing bs with
  | nil =>
    simp only [mapExcept, Except.ok.injEq] at h
    subst h
    simp
  | cons a as ih =>
    simp only [mapExcept] at h
    cases hfa : f a with
    | error e => rw [hfa] at h; simp at h
    | ok b0 =>
      rw [hfa] at h
      cases hrest : mapExcept f as with
      | error e => rw [hrest] at h; simp at h
      | ok bs' =>
        rw [hrest] at h
        simp only [Except.ok.injEq] at h
        subst h
        intro b hb
        rcases List.mem_cons.mp hb with h1 | h1
        · exact ⟨a, List.mem_cons_self _ _, h1 ▸ hfa⟩
        · obtain ⟨a', ha', hfa'⟩ := ih hrest b h1
          exact ⟨a', List.mem_cons_of_mem _ ha', hfa'⟩

theorem mapExcept_mem_ok {α β : Type} {f : α → Except Err β} {l : List α}
    {bs : List β} (h : mapExcept f l = .ok bs) :
    ∀ a ∈ l, ∃ b ∈ bs, f a = .ok b := by
  induction l generalizing bs with
  | nil => simp
  | cons a as ih =>
    simp only [mapExcept] at h
    cases hfa : f a with
    | error e => rw [hfa] at h; simp at h
    | ok b0 =>
      rw [hfa] at h
      cases hrest : mapExcept f as with
      | error e => rw [hrest] at h; simp at h
      | ok bs' =>
        rw [hrest] at h
        simp only [Except.ok.injEq] at h
        subst h
        intro x hx
        rcases List.mem_cons.mp hx with h1 | h1
        · exact ⟨b0, List.mem_cons_self _ _, h1 ▸ hfa⟩
        · obtain ⟨b, hb, hfb⟩ := ih hrest x h1
          exact ⟨b, List.mem_cons_of_mem _ hb, hfb⟩

/-! ### Measure lemmas -/

theorem backlog_measure_nil : backlog_measure [] = 0 := rfl

theorem backlog_measure_cons {b : Board} {L : List Board} :
    backlog_measure (b :: L) = bmeasure b + backlog_measure L := by
  simp [backlog_measure]

theorem backlog_measure_append {L1 L2 : List Board} :
    backlog_measure (L1 ++ L2) = backlog_measure L1 + backlog_measure L2 := by
  simp [backlog_measure]

theorem backlog_measure_reverse {L : List Board} :
    backlog_measure L.reverse = backlog_measure L := by
  unfold backlog_measure
  rw [List.map_reverse, List.sum_reverse]

theorem bmeasure_pos (b : Board) : 1 ≤ bmeasure b :=
  Nat.one_le_pow _ _ (by omega)

section SearchLemmas

variable {R : Type} (shc : R → List Char → List Char × R) (shk : R → List Coord → List Coord × R)

theorem iter_next_boards_ok_inv {r r' : R} {b : Board} {cs : List Board}
    (h : iter_next_boards shc r b = .ok (cs, r')) :
    (b.next_keys = [] ∧ cs = [] ∧ r' = r) ∨
      ∃ k ks, b.next_keys = k :: ks ∧ r' = (shc r b.symbols).2 ∧
        mapExcept (fun s => b.copy_and_set (min_coord k ks) s) (shc r b.symbols).1 = .ok cs := by
  unfold iter_next_boards at h
  split at h
  · rename_i heq
    simp only [Except.ok.injEq, Prod.mk.injEq] at h
    exact Or.inl ⟨heq, h.1.symm, h.2.symm⟩
  · rename_i k ks heq
    split at h
    · simp at h
    · rename_i boards hm
      simp only [Except.ok.injEq, Prod.mk.injEq] at h
      refine Or.inr ⟨k, ks, heq, h.2.symm, ?_⟩
      rw [hm, h.1]

/-- Shape of every "next" board: the parent with its smallest unfilled
coordinate filled by an alphabet symbol. -/
theorem iter_next_boards_child {r r' : R} {b : Board} {cs : List Board}
    (h : iter_next_boards shc r b = .ok (cs, r')) :
    ∀ c ∈ cs, ∃ nf s, nf ∈ b.next_keys ∧ lookup? b.filled nf = none ∧
      nf ∈ b.all_coords ∧ s ∈ b.symbols ∧
      c = { b with filled := b.filled ++ [(nf, s)] } := by
  intro c hcs
  rcases iter_next_boards_ok_inv shc h with ⟨_, hnil, _⟩ | ⟨k, ks, hnk, _, hm⟩
  · rw [hnil] at hcs
    simp at hcs
  · obtain ⟨s, _, hs⟩ := mapExcept_ok_mem hm c hcs
    obtain ⟨h1, h2, h3, h4⟩ := copy_and_set_ok_inv hs
    exact ⟨min_coord k ks, s, hnk ▸ min_coord_mem k ks, h1, h2, h3, h4⟩

/-- Whenever the shuffle is a permutation, `iter_next_boards` cannot raise:
the chosen coordinate is unfilled and on the board, and every symbol offered
is in the alphabet. -/
theorem iter_next_boards_ok (hc : ∀ r l, (shc r l).1.Perm l) (r : R) (b : Board) :
    ∃ cs r', iter_next_boards shc r b = .ok (cs, r') := by
  cases hnk : b.next_keys with
  | nil =>
    refine ⟨[], r, ?_⟩
    unfold iter_next_boards
    rw [hnk]
  | cons k ks =>
    have hmem : min_coord k ks ∈ b.next_keys := hnk ▸ min_coord_mem k ks
    obtain ⟨hall, hnone⟩ := mem_next_keys.mp hmem
    have hall' : ∀ s ∈ (shc r b.symbols).1,
        b.copy_and_set (min_coord k ks) s =
          .ok { b with filled := b.filled ++ [(min_coord k ks, s)] } := by
      intro s hs
      exact copy_and_set_eq_ok hnone hall ((hc r b.symbols).mem_iff.mp hs)
    refine ⟨(shc r b.symbols).1.map
      (fun s => { b with filled := b.filled ++ [(min_coord k ks, s)] }),
      (shc r b.symbols).2, ?_⟩
    unfold iter_next_boards
    rw [hnk]
    dsimp only
    rw [mapExcept_eq_map hall']

/-- The children of a board weigh strictly less than the board itself. -/
theorem iter_next_boards_measure (hc : ∀ r l, (shc r l).1.Perm l)
    {r r' : R} {b : Board} {cs : List Board}
    (h : iter_next_boards shc r b = .ok (cs, r')) :
    backlog_measure cs + 1 ≤ bmeasure b := by
  rcases iter_next_boards_ok_inv shc h with ⟨_, hnil, _⟩ | ⟨k, ks, hnk, _, hm⟩
  · rw [hnil]
    rw [backlog_measure_nil]
    exact bmeasure_pos b
  · have hu : 1 ≤ unfilled b := by
      unfold unfilled
      rw [hnk]
      simp
    have hchild : ∀ c ∈ cs, bmeasure c ≤ (b.symbols.length + 1) ^ (unfilled b - 1) := by
      intro c hcs
      obtain ⟨nf, s, hnfmem, hnone, _, _, hcform⟩ := iter_next_boards_child shc h c hcs
      have hsym : c.symbols = b.symbols := by rw [hcform]
      have hunf : unfilled c + 1 ≤ unfilled b := by
        unfold unfilled
        rw [hcform]
        rw [next_keys_after_set hnone]
        exact length_filter_ne_lt hnfmem
      unfold bmeasure
      rw [hsym]
      exact Nat.pow_le_pow_right (by omega) (by omega)
    have hlen : cs.length = b.symbols.length := by
      rw [mapExcept_ok_length hm]
      exact (hc r b.symbols).length_eq
    have hsum : backlog_measure cs ≤ cs.length * ((b.symbols.length + 1) ^ (unfilled b - 1)) := by
      unfold backlog_measure
      calc (cs.map bmeasure).sum
          ≤ (cs.map bmeasure).length • ((b.symbols.length + 1) ^ (unfilled b - 1)) := by
            apply List.sum_le_card_nsmul
            intro x hx
            obtain ⟨c, hc1, hc2⟩ := List.mem_map.mp hx
            exact hc2 ▸ hchild c hc1
        _ = cs.length * ((b.symbols.length + 1) ^ (unfilled b - 1)) := by
            rw [List.length_map]
            simp [smul_eq_mul]
    have hpow : ∀ A : Nat, 1 ≤ A →
        b.symbols.length * A + 1 ≤ A * (b.symbols.length + 1) := by
      intro A hA
      rw [Nat.mul_succ, Nat.mul_comm A b.symbols.length]
      omega
    have hfinal : (b.symbols.length + 1) ^ unfilled b =
        ((b.symbols.length + 1) ^ (unfilled b - 1)) * (b.symbols.length + 1) := by
      conv_lhs => rw [show unfilled b = (unfilled b - 1) + 1 from by omega]
      rw [pow_succ]
    unfold bmeasure
    rw [hfinal]
    have hA := hpow ((b.symbols.length + 1) ^ (unfilled b - 1)) (Nat.one_le_pow _ _ (by omega))
    rw [hlen] at hsum
    omega

theorem backtrack_loop_nil (fuel : Nat) (r : R) :
    backtrack_loop shc fuel r [] = .ok ([], r) := by
  cases fuel <;> rfl

theorem backtrack_loop_succ_cons {f : Nat} {r : R} {b : Board} {rest : List Board} :
    backtrack_loop shc (f + 1) r (b :: rest) =
      if b.is_valid then
        match iter_next_boards shc r b with
        | .error e => .error e
        | .ok (children, r') =>
          match backtrack_loop shc f r' (children.reverse ++ rest) with
          | .error e => .error e
          | .ok (out, r'') => .ok ((if b.is_full then [b] else []) ++ out, r'')
      else backtrack_loop shc f r rest := rfl

/-- With a permuting shuffle the solver loop never raises: the fuel computed
from the measure is sufficient and no `_copy_and_set` guard can fire. -/
theorem backtrack_loop_ok (hc : ∀ r l, (shc r l).1.Perm l) :
    ∀ (fuel : Nat) (r : R) (L : List Board), backlog_measure L ≤ fuel →
      ∃ out r', backtrack_loop shc fuel r L = .ok (out, r') := by
  intro fuel
  induction fuel with
  | zero =>
    intro r L hm
    cases L with
    | nil => exact ⟨[], r, backtrack_loop_nil shc 0 r⟩
    | cons b rest =>
      exfalso
      rw [backlog_measure_cons] at hm
      have := bmeasure_pos b
      omega
  | succ f ih =>
    intro r L hm
    cases L with
    | nil => exact ⟨[], r, backtrack_loop_nil shc _ r⟩
    | cons b rest =>
      rw [backlog_measure_cons] at hm
      by_cases hv : b.is_valid
      · obtain ⟨cs, r1, hiter⟩ := iter_next_boards_ok shc hc r b
        have hm' : backlog_measure (cs.reverse ++ rest) ≤ f := by
          rw [backlog_measure_append, backlog_measure_reverse]
          have := iter_next_boards_measure shc hc hiter
          omega
        obtain ⟨out, r2, hloop⟩ := ih r1 (cs.reverse ++ rest) hm'
        refine ⟨(if b.is_full then [b] else []) ++ out, r2, ?_⟩
        rw [backtrack_loop_succ_cons, if_pos hv]
        simp only [hiter, hloop]
      · rw [backtrack_loop_succ_cons, if_neg hv]
        apply ih
        have := bmeasure_pos b
        omega

/-- Each "next" board extends its parent and keeps its shape. -/
theorem iter_next_boards_rel {r r' : R} {b : Board} {cs : List Board}
    (h : iter_next_boards shc r b = .ok (cs, r')) :
    ∀ c ∈ cs, SameShape b c ∧ Submap b.filled c.filled := by
  intro c hcm
  obtain ⟨nf, s, _, _, _, _, hform⟩ := iter_next_boards_child shc h c hcm
  subst hform
  exact ⟨⟨rfl, rfl, rfl, rfl, rfl⟩, fun k v hv => lookup?_append_some hv⟩

theorem nodup_append_single {l : List Coord} {a : Coord} (h1 : l.Nodup) (h2 : a ∉ l) :
    (l ++ [a]).Nodup := by
  rw [List.nodup_append]
  refine ⟨h1, List.nodup_singleton a, ?_⟩
  intro x hx
  simp only [List.mem_singleton]
  intro he
  exact h2 (he ▸ hx)

/-- Each "next" board of a well-formed board is well-formed. -/
theorem iter_next_boards_WF {r r' : R} {b : Board} {cs : List Board}
    (hwf : WF b) (h : iter_next_boards shc r b = .ok (cs, r')) :
    ∀ c ∈ cs, WF c := by
  intro c hcm
  obtain ⟨nf, s, _, hnone, hall, hsym, hform⟩ := iter_next_boards_child shc h c hcm
  obtain ⟨w1, w2, w3, w4⟩ := hwf
  subst hform
  refine ⟨w1, w2, ?_, ?_⟩
  · show keysNodup (b.filled ++ [(nf, s)])
    unfold keysNodup
    rw [keysOf_append_single]
    exact nodup_append_single w3 (lookup?_eq_none_iff.mp hnone)
  · intro p hp
    rcases List.mem_append.mp hp with h1 | h1
    · exact w4 p h1
    · rw [List.mem_singleton] at h1
      subst h1
      exact ⟨hall, hsym⟩

/-- Soundness of the solver loop: every yielded board is valid, full, and an
extension of some backlog board (of the input board, for a singleton
backlog). -/
theorem backtrack_loop_sound :
    ∀ (fuel : Nat) (r : R) (L : List Board) (out : List Board) (r' : R),
      backtrack_loop shc fuel r L = .ok (out, r') →
      ∀ y ∈ out, y.is_valid = true ∧ y.is_full = true ∧
        ∃ x ∈ L, SameShape x y ∧ Submap x.filled y.filled := by
  intro fuel
  induction fuel with
  | zero =>
    intro r L out r' h y hy
    cases L with
    | nil =>
      rw [backtrack_loop_nil] at h
      simp only [Except.ok.injEq, Prod.mk.injEq] at h
      rw [← h.1] at hy
      simp at hy
    | cons b rest => simp [backtrack_loop] at h
  | succ f ih =>
    intro r L out r' h y hy
    cases L with
    | nil =>
      rw [backtrack_loop_nil] at h
      simp only [Except.ok.injEq, Prod.mk.injEq] at h
      rw [← h.1] at hy
      simp at hy
    | cons b rest =>
      rw [backtrack_loop_succ_cons] at h
      by_cases hv : b.is_valid
      · rw [if_pos hv] at h
        cases hiter : iter_next_boards shc r b with
        | error e => rw [hiter] at h; simp at h
        | ok p =>
          obtain ⟨cs, r1⟩ := p
          simp only [hiter] at h
          cases hloop : backtrack_loop shc f r1 (cs.reverse ++ rest) with
          | error e => rw [hloop] at h; simp at h
          | ok q =>
            obtain ⟨out1, r2⟩ := q
            simp only [hloop, Except.ok.injEq, Prod.mk.injEq] at h
            have hout : (if b.is_full then [b] else []) ++ out1 = out := h.1
            rw [← hout] at hy
            rcases List.mem_append.mp hy with h1 | h1
            · by_cases hfull : b.is_full
              · rw [if_pos hfull] at h1
                rw [List.mem_singleton] at h1
                refine ⟨?_, ?_, b, List.mem_cons_self _ _, ?_, ?_⟩ <;> rw [h1]
                exacts [hv, hfull, SameShape_refl b, Submap_refl b.filled]
              · rw [if_neg hfull] at h1
                simp at h1
            · obtain ⟨hyv, hyf, x, hx, hshape, hsub⟩ := ih r1 _ out1 r2 hloop y h1
              rcases List.mem_append.mp hx with h2 | h2
              · have hrel := iter_next_boards_rel shc hiter x (List.mem_reverse.mp h2)
                exact ⟨hyv, hyf, b, List.mem_cons_self _ _,
                  SameShape_trans hrel.1 hshape, Submap_trans hrel.2 hsub⟩
              · exact ⟨hyv, hyf, x, List.mem_cons_of_mem _ h2, hshape, hsub⟩
      · rw [if_neg hv] at h
        obtain ⟨hyv, hyf, x, hx, hshape, hsub⟩ := ih r rest out r' h y hy
        exact ⟨hyv, hyf, x, List.mem_cons_of_mem _ hx, hshape, hsub⟩

/-- Yielded boards of a well-formed backlog are well-formed. -/
theorem backtrack_loop_WF :
    ∀ (fuel : Nat) (r : R) (L : List Board) (out : List Board) (r' : R),
      backtrack_loop shc fuel r L = .ok (out, r') → (∀ x ∈ L, WF x) →
      ∀ y ∈ out, WF y := by
  intro fuel
  induction fuel with
  | zero =>
    intro r L out r' h hL y hy
    cases L with
    | nil =>
      rw [backtrack_loop_nil] at h
      simp only [Except.ok.injEq, Prod.mk.injEq] at h
      rw [← h.1] at hy
      simp at hy
    | cons b rest => simp [backtrack_loop] at h
  | succ f ih =>
    intro r L out r' h hL y hy
    cases L with
    | nil =>
      rw [backtrack_loop_nil] at h
      simp only [Except.ok.injEq, Prod.mk.injEq] at h
      rw [← h.1] at hy
      simp at hy
    | cons b rest =>
      rw [backtrack_loop_succ_cons] at h
      by_cases hv : b.is_valid
      · rw [if_pos hv] at h
        cases hiter : iter_next_boards shc r b with
        | error e => rw [hiter] at h; simp at h
        | ok p =>
          obtain ⟨cs, r1⟩ := p
          simp only [hiter] at h
          cases hloop : backtrack_loop shc f r1 (cs.reverse ++ rest) with
          | error e => rw [hloop] at h; simp at h
          | ok q =>
            obtain ⟨out1, r2⟩ := q
            simp only [hloop, Except.ok.injEq, Prod.mk.injEq] at h
            rw [← h.1] at hy
            rcases List.mem_append.mp hy with h1 | h1
            · by_cases hfull : b.is_full
              · rw [if_pos hfull] at h1
                rw [List.mem_singleton] at h1
                exact h1 ▸ hL b (List.mem_cons_self _ _)
              · rw [if_neg hfull] at h1
                simp at h1
            · refine ih r1 _ out1 r2 hloop ?_ y h1
              intro x hx
              rcases List.mem_append.mp hx with h2 | h2
              · exact iter_next_boards_WF shc (hL b (List.mem_cons_self _ _)) hiter x
                  (List.mem_reverse.mp h2)
              · exact hL x (List.mem_cons_of_mem _ h2)
      · rw [if_neg hv] at h
        exact ih r rest out r' h (fun x hx => hL x (List.mem_cons_of_mem _ hx)) y hy

end SearchLemmas

/-! ### Validity is antitone, fullness determines the unfilled set -/

theorem seg_valid_go_cons_none {f : List (Coord × Char)} {c : Coord} {cs : List Coord}
    {seen : List Char} (h : lookup? f c = none) :
    Board.seg_valid_go f (c :: cs) seen = Board.seg_valid_go f cs seen := by
  show (match lookup? f c with
    | none => Board.seg_valid_go f cs seen
    | some s => if s ∈ seen then false else Board.seg_valid_go f cs (s :: seen)) = _
  rw [h]

theorem seg_valid_go_cons_some {f : List (Coord × Char)} {c : Coord} {cs : List Coord}
    {seen : List Char} {s : Char} (h : lookup? f c = some s) :
    Board.seg_valid_go f (c :: cs) seen =
      if s ∈ seen then false else Board.seg_valid_go f cs (s :: seen) := by
  show (match lookup? f c with
    | none => Board.seg_valid_go f cs seen
    | some s => if s ∈ seen then false else Board.seg_valid_go f cs (s :: seen)) = _
  rw [h]

theorem seg_valid_go_mono {f g : List (Coord × Char)} (hsub : Submap f g) :
    ∀ (coords : List Coord) (seenF seenG : List Char),
      (∀ s, s ∈ seenF → s ∈ seenG) → Board.seg_valid_go g coords seenG = true →
      Board.seg_valid_go f coords seenF = true := by
  intro coords
  induction coords with
  | nil => intro _ _ _ _; rfl
  | cons c cs ih =>
    intro seenF seenG hseen hg
    cases hf : lookup? f c with
    | none =>
      rw [seg_valid_go_cons_none hf]
      cases hgc : lookup? g c with
      | none =>
        rw [seg_valid_go_cons_none hgc] at hg
        exact ih seenF seenG hseen hg
      | some s =>
        rw [seg_valid_go_cons_some hgc] at hg
        by_cases hs : s ∈ seenG
        · rw [if_pos hs] at hg
          simp at hg
        · rw [if_neg hs] at hg
          exact ih seenF (s :: seenG)
            (fun t ht => List.mem_cons_of_mem _ (hseen t ht)) hg
    | some s =>
      have hgc : lookup? g c = some s := hsub c s hf
      rw [seg_valid_go_cons_some hgc] at hg
      rw [seg_valid_go_cons_some hf]
      by_cases hsG : s ∈ seenG
      · rw [if_pos hsG] at hg
        simp at hg
      · rw [if_neg hsG] at hg
        have hsF : s ∉ seenF := fun hh => hsG (hseen s hh)
        rw [if_neg hsF]
        refine ih (s :: seenF) (s :: seenG) ?_ hg
        intro t ht
        rcases List.mem_cons.mp ht with h1 | h1
        · exact h1 ▸ List.mem_cons_self _ _
        · exact List.mem_cons_of_mem _ (hseen t h1)

/-- A sub-board of a valid board (over the same segments) is valid. -/
theorem is_valid_of_submap {a c : Board} (hseg : a.segments = c.segments)
    (hsub : Submap a.filled c.filled) (hv : c.is_valid = true) : a.is_valid = true := by
  unfold Board.is_valid at hv ⊢
  rw [hseg]
  rw [List.all_eq_true] at hv ⊢
  intro seg hsegmem
  have hcv := hv seg hsegmem
  unfold Board.is_segment_valid at hcv ⊢
  exact seg_valid_go_mono hsub seg.coords [] [] (by simp) hcv

theorem keysOf_length {l : List (Coord × Char)} : (keysOf l).length = l.length :=
  List.length_map _ _

theorem keysOf_subset_all {b : Board} (hwf : WF b) :
    ∀ k ∈ keysOf b.filled, k ∈ b.all_coords := by
  intro k hk
  obtain ⟨p, hp, hpk⟩ := List.mem_map.mp hk
  exact hpk ▸ (hwf.2.2.2 p hp).1

/-- A full well-formed board has no unfilled in-play coordinate. -/
theorem next_keys_nil_of_full {b : Board} (hwf : WF b) (hfull : b.is_full = true) :
    b.next_keys = [] := by
  have hlen : b.all_coords.length = b.filled.length := by
    simpa [Board.is_full] using hfull
  have hsp : (keysOf b.filled).Subperm b.all_coords :=
    hwf.2.2.1.subperm (keysOf_subset_all hwf)
  have hperm : (keysOf b.filled).Perm b.all_coords :=
    hsp.perm_of_length_le (by rw [keysOf_length]; omega)
  unfold Board.next_keys
  rw [List.filter_eq_nil_iff]
  intro c hcall
  have hck : c ∈ keysOf b.filled := hperm.mem_iff.mpr hcall
  have := lookup?_isSome_iff.mpr hck
  simp only [Option.isNone]
  cases hl : lookup? b.filled c with
  | none => rw [hl] at this; simp at this
  | some v => simp

/-- A well-formed board that is not full has an unfilled in-play
coordinate. -/
theorem next_keys_ne_nil_of_not_full {b : Board} (hwf : WF b)
    (hfull : b.is_full = false) : b.next_keys ≠ [] := by
  have hlen : b.all_coords.length ≠ b.filled.length := by
    intro hcontra
    rw [Board.is_full] at hfull
    simp [hcontra] at hfull
  have hsp : (keysOf b.filled).Subperm b.all_coords :=
    hwf.2.2.1.subperm (keysOf_subset_all hwf)
  have hle : (keysOf b.filled).length ≤ b.all_coords.length := hsp.length_le
  rw [keysOf_length] at hle
  have hlt : b.filled.length < b.all_coords.length := by omega
  by_contra hnil
  unfold Board.next_keys at hnil
  rw [List.filter_eq_nil_iff] at hnil
  have hall_sub : b.all_coords ⊆ keysOf b.filled := by
    intro c hc
    have := hnil c hc
    rw [← lookup?_isSome_iff]
    cases hl : lookup? b.filled c with
    | none => rw [hl] at this; simp at this
    | some v => simp
  have := (hwf.2.1.subperm hall_sub).length_le
  rw [keysOf_length] at this
  omega

/-- A full board agrees with any complete well-formed extension of the same
shape on the entire map. -/
theorem full_mapEq {x c : Board} (hxwf : WF x) (hxfull : x.is_full = true)
    (hshape : SameShape x c) (hcwf : WF c) (hsub : Submap x.filled c.filled) :
    mapEq x.filled c.filled := by
  intro k
  cases hl : lookup? x.filled k with
  | some v => exact (hsub k v hl).symm
  | none =>
    cases hlc : lookup? c.filled k with
    | none => rfl
    | some w =>
      exfalso
      have hkc : k ∈ c.all_coords := (hcwf.2.2.2 _ (lookup?_mem hlc)).1
      have hkx : k ∈ x.all_coords := hshape.2.2.2.2 ▸ hkc
      have hnk := next_keys_nil_of_full hxwf hxfull
      have : k ∈ x.next_keys := mem_next_keys.mpr ⟨hkx, hl⟩
      rw [hnk] at this
      simp at this

section SearchLemmasB

variable {R : Type} (shc : R → List Char → List Char × R) (shk : R → List Coord → List Coord × R)

/-- Completeness of the solver loop: every complete well-formed extension of
a well-formed backlog board is yielded (up to map equality). -/
theorem backtrack_loop_complete (hc : ∀ r l, (shc r l).1.Perm l) :
    ∀ (fuel : Nat) (r : R) (L : List Board) (x c : Board),
      backlog_measure L ≤ fuel → x ∈ L → WF x → SameShape x c →
      Submap x.filled c.filled → WF c → c.is_full = true → c.is_valid = true →
      ∀ out r', backtrack_loop shc fuel r L = .ok (out, r') →
      ∃ y ∈ out, SameShape y c ∧ mapEq y.filled c.filled := by
  intro fuel
  induction fuel with
  | zero =>
    intro r L x c hm hx _ _ _ _ _ _ out r' h
    cases L with
    | nil => simp at hx
    | cons b rest =>
      rw [backlog_measure_cons] at hm
      have := bmeasure_pos b
      omega
  | succ f ih =>
    intro r L x c hm hx hxwf hshape hsub hcwf hcfull hcvalid out r' h
    cases L with
    | nil => simp at hx
    | cons b rest =>
      rw [backlog_measure_cons] at hm
      rw [backtrack_loop_succ_cons] at h
      by_cases hv : b.is_valid
      · rw [if_pos hv] at h
        cases hiter : iter_next_boards shc r b with
        | error e => rw [hiter] at h; simp at h
        | ok p =>
          obtain ⟨cs, r1⟩ := p
          simp only [hiter] at h
          cases hloop : backtrack_loop shc f r1 (cs.reverse ++ rest) with
          | error e => rw [hloop] at h; simp at h
          | ok q =>
            obtain ⟨out1, r2⟩ := q
            simp only [hloop, Except.ok.injEq, Prod.mk.injEq] at h
            have hm' : backlog_measure (cs.reverse ++ rest) ≤ f := by
              rw [backlog_measure_append, backlog_measure_reverse]
              have := iter_next_boards_measure shc hc hiter
              omega
            rcases List.mem_cons.mp hx with hxb | hxrest
            · -- the tracked board is the popped board
              by_cases hxfull : x.is_full
              · -- it is full: it is yielded and agrees with c everywhere
                refine ⟨x, ?_, hshape, full_mapEq hxwf hxfull hshape hcwf hsub⟩
                rw [← h.1, hxb]
                rw [if_pos (hxb ▸ hxfull)]
                exact List.mem_append.mpr (Or.inl (List.mem_singleton.mpr rfl))
              · -- not full: follow the child that agrees with c
                have hnk := next_keys_ne_nil_of_not_full hxwf
                  (by rw [Bool.eq_false_iff]; exact hxfull)
                rcases iter_next_boards_ok_inv shc hiter with ⟨hnil, _, _⟩ | ⟨k, ks, hnkeq, _, hm2⟩
                · exact absurd (hxb ▸ hnil) hnk
                · have hnfmem : min_coord k ks ∈ b.next_keys := hnkeq ▸ min_coord_mem k ks
                  obtain ⟨hnfall, hnfnone⟩ := mem_next_keys.mp hnfmem
                  -- the value c holds at the chosen coordinate
                  have hnfc : min_coord k ks ∈ c.all_coords := by
                    rw [← hshape.2.2.2.2, hxb]
                    exact hnfall
                  have hcnk := next_keys_nil_of_full hcwf hcfull
                  have hcsome : (lookup? c.filled (min_coord k ks)).isSome := by
                    cases hl : lookup? c.filled (min_coord k ks) with
                    | some v => simp
                    | none =>
                      exfalso
                      have : min_coord k ks ∈ c.next_keys := mem_next_keys.mpr ⟨hnfc, hl⟩
                      rw [hcnk] at this
                      simp at this
                  obtain ⟨v, hveq⟩ := Option.isSome_iff_exists.mp hcsome
                  have hvsym : v ∈ c.symbols := (hcwf.2.2.2 _ (lookup?_mem hveq)).2
                  have hvsymb : v ∈ b.symbols := by
                    rw [hxb] at hshape
                    rw [hshape.2.2.2.1]
                    exact hvsym
                  have hvshuf : v ∈ (shc r b.symbols).1 := (hc r b.symbols).mem_iff.mpr hvsymb
                  obtain ⟨childv, hchildmem, hchildeq⟩ := mapExcept_mem_ok hm2 v hvshuf
                  obtain ⟨hl1, _, _, hform⟩ := copy_and_set_ok_inv hchildeq
                  have hchildwf : WF childv :=
                    iter_next_boards_WF shc (hxb ▸ hxwf) hiter childv hchildmem
                  have hchildshape : SameShape childv c := by
                    have h1 : SameShape b childv := (iter_next_boards_rel shc hiter childv hchildmem).1
                    exact SameShape_trans (SameShape_symm h1) (hxb ▸ hshape : SameShape b c)
                  have hchildsub : Submap childv.filled c.filled := by
                    intro k0 v0 hk0
                    rw [hform] at hk0
                    simp only at hk0
                    rw [lookup?_set hl1] at hk0
                    by_cases hk0nf : k0 = min_coord k ks
                    · rw [if_pos hk0nf] at hk0
                      rw [hk0nf, hveq, ← hk0]
                    · rw [if_neg hk0nf] at hk0
                      have : lookup? x.filled k0 = some v0 := by rw [hxb]; exact hk0
                      exact hsub k0 v0 this
                  obtain ⟨y, hy, hyshape, hymap⟩ := ih r1 (cs.reverse ++ rest) childv c hm'
                    (List.mem_append.mpr (Or.inl (List.mem_reverse.mpr hchildmem)))
                    hchildwf hchildshape hchildsub hcwf hcfull hcvalid out1 r2 hloop
                  refine ⟨y, ?_, hyshape, hymap⟩
                  rw [← h.1]
                  exact List.mem_append.mpr (Or.inr hy)
            · -- the tracked board sits deeper in the backlog
              obtain ⟨y, hy, hyshape, hymap⟩ := ih r1 (cs.reverse ++ rest) x c hm'
                (List.mem_append.mpr (Or.inr hxrest)) hxwf hshape hsub hcwf hcfull
                hcvalid out1 r2 hloop
              refine ⟨y, ?_, hyshape, hymap⟩
              rw [← h.1]
              exact List.mem_append.mpr (Or.inr hy)
      · rw [if_neg hv] at h
        rcases List.mem_cons.mp hx with hxb | hxrest
        · -- the popped board cannot be invalid: it is a sub-board of valid c
          exfalso
          have : x.is_valid = true :=
            is_valid_of_submap hshape.2.2.1 hsub hcvalid
          rw [hxb] at this
          exact hv this
        · have hm' : backlog_measure rest ≤ f := by
            have := bmeasure_pos b
            omega
          exact ih r rest x c hm' hxrest hxwf hshape hsub hcwf hcfull hcvalid out r' h

/-- Two boards that disagree at some filled coordinate; no board can extend
both. -/
def Conflict (a b : Board) : Prop :=
  ∃ k v w, lookup? a.filled k = some v ∧ lookup? b.filled k = some w ∧ v ≠ w

theorem Conflict.symm {a b : Board} (h : Conflict a b) : Conflict b a := by
  obtain ⟨k, v, w, h1, h2, h3⟩ := h
  exact ⟨k, w, v, h2, h1, Ne.symm h3⟩

/-- The solver loop yields pairwise distinct filled mappings, provided the
backlog boards pairwise conflict (trivially true of a single board). -/
theorem backtrack_loop_pairwise (hc : ∀ r l, (shc r l).1.Perm l) :
    ∀ (fuel : Nat) (r : R) (L : List Board) (out : List Board) (r' : R),
      backtrack_loop shc fuel r L = .ok (out, r') →
      (∀ x ∈ L, x.symbols.Nodup) → L.Pairwise Conflict →
      out.Pairwise (fun y1 y2 => ¬ mapEq y1.filled y2.filled) := by
  intro fuel
  induction fuel with
  | zero =>
    intro r L out r' h _ _
    cases L with
    | nil =>
      rw [backtrack_loop_nil] at h
      simp only [Except.ok.injEq, Prod.mk.injEq] at h
      rw [← h.1]
      exact List.Pairwise.nil
    | cons b rest => simp [backtrack_loop] at h
  | succ f ih =>
    intro r L out r' h hsym hpw
    cases L with
    | nil =>
      rw [backtrack_loop_nil] at h
      simp only [Except.ok.injEq, Prod.mk.injEq] at h
      rw [← h.1]
      exact List.Pairwise.nil
    | cons b rest =>
      rw [backtrack_loop_succ_cons] at h
      by_cases hv : b.is_valid
      · rw [if_pos hv] at h
        cases hiter : iter_next_boards shc r b with
        | error e => rw [hiter] at h; simp at h
        | ok p =>
          obtain ⟨cs, r1⟩ := p
          simp only [hiter] at h
          cases hloop : backtrack_loop shc f r1 (cs.reverse ++ rest) with
          | error e => rw [hloop] at h; simp at h
          | ok q =>
            obtain ⟨out1, r2⟩ := q
            simp only [hloop, Except.ok.injEq, Prod.mk.injEq] at h
            -- the children all conflict with each other and with the rest
            have hchild_conf : ∀ x ∈ cs, ∀ z ∈ rest, Conflict x z := by
              intro x hx z hz
              obtain ⟨nf, s, _, hnone, _, _, hform⟩ :=
                iter_next_boards_child shc hiter x hx
              have hbz : Conflict b z := (List.pairwise_cons.mp hpw).1 z hz
              obtain ⟨k0, v, w, hbv, hzw, hvw⟩ := hbz
              have hk0 : k0 ≠ nf := by
                intro hh
                rw [hh, hnone] at hbv
                simp at hbv
              refine ⟨k0, v, w, ?_, hzw, hvw⟩
              rw [hform]
              show lookup? (b.filled ++ [(nf, s)]) k0 = some v
              rw [lookup?_set hnone, if_neg hk0]
              exact hbv
            have hcs_pair : cs.Pairwise Conflict := by
              rcases iter_next_boards_ok_inv shc hiter with ⟨_, hnil, _⟩ | ⟨k, ks, hnkeq, _, hm2⟩
              · rw [hnil]; exact List.Pairwise.nil
              · have hnfmem : min_coord k ks ∈ b.next_keys := hnkeq ▸ min_coord_mem k ks
                obtain ⟨hnfall, hnfnone⟩ := mem_next_keys.mp hnfmem
                have hall' : ∀ s ∈ (shc r b.symbols).1,
                    b.copy_and_set (min_coord k ks) s =
                      .ok { b with filled := b.filled ++ [(min_coord k ks, s)] } := by
                  intro s hs
                  exact copy_and_set_eq_ok hnfnone hnfall ((hc r b.symbols).mem_iff.mp hs)
                have hcseq : cs = (shc r b.symbols).1.map
                    (fun s => { b with filled := b.filled ++ [(min_coord k ks, s)] }) := by
                  have := mapExcept_eq_map hall'
                  rw [hm2] at this
                  exact (Except.ok.injEq _ _ ▸ this : _ = _)
                rw [hcseq]
                rw [List.pairwise_map]
                have hnd : (shc r b.symbols).1.Nodup :=
                  ((hc r b.symbols).nodup_iff).mpr (hsym b (List.mem_cons_self _ _))
                refine hnd.imp ?_
                intro s s' hne
                refine ⟨min_coord k ks, s, s', ?_, ?_, hne⟩
                · show lookup? (b.filled ++ [(min_coord k ks, s)]) (min_coord k ks) = some s
                  rw [lookup?_set hnfnone, if_pos rfl]
                · show lookup? (b.filled ++ [(min_coord k ks, s')]) (min_coord k ks) = some s'
                  rw [lookup?_set hnfnone, if_pos rfl]
            have hpw' : (cs.reverse ++ rest).Pairwise Conflict := by
              rw [List.pairwise_append]
              refine ⟨?_, (List.pairwise_cons.mp hpw).2, ?_⟩
              · rw [List.pairwise_reverse]
                exact hcs_pair.imp (fun h => Conflict.symm h)
              · intro x hx z hz
                exact hchild_conf x (List.mem_reverse.mp hx) z hz
            have hsym' : ∀ x ∈ cs.reverse ++ rest, x.symbols.Nodup := by
              intro x hx
              rcases List.mem_append.mp hx with h1 | h1
              · have := (iter_next_boards_rel shc hiter x (List.mem_reverse.mp h1)).1
                rw [← this.2.2.2.1]
                exact hsym b (List.mem_cons_self _ _)
              · exact hsym x (List.mem_cons_of_mem _ h1)
            have hout1 := ih r1 (cs.reverse ++ rest) out1 r2 hloop hsym' hpw'
            rw [← h.1]
            by_cases hfull : b.is_full
            · rw [if_pos hfull]
              show (b :: out1).Pairwise _
              rw [List.pairwise_cons]
              refine ⟨?_, hout1⟩
              intro y hy hme
              obtain ⟨_, _, x, hx, _, hsub⟩ :=
                backtrack_loop_sound shc f r1 _ out1 r2 hloop y hy
              rcases List.mem_append.mp hx with h1 | h1
              · obtain ⟨nf, s, _, hnone, _, _, hform⟩ :=
                  iter_next_boards_child shc hiter x (List.mem_reverse.mp h1)
                have hxnf : lookup? x.filled nf = some s := by
                  rw [hform]
                  show lookup? (b.filled ++ [(nf, s)]) nf = some s
                  rw [lookup?_set hnone, if_pos rfl]
                have hynf : lookup? y.filled nf = some s := hsub nf s hxnf
                have := hme nf
                rw [hnone, hynf] at this
                simp at this
              · obtain ⟨k0, v, w, hbv, hxw, hvw⟩ := (List.pairwise_cons.mp hpw).1 x h1
                have hyw : lookup? y.filled k0 = some w := hsub k0 w hxw
                have := hme k0
                rw [hbv, hyw] at this
                simp only [Option.some.injEq] at this
                exact hvw this
            · rw [if_neg hfull]
              exact hout1
      · rw [if_neg hv] at h
        exact ih r rest out r' h (fun x hx => hsym x (List.mem_cons_of_mem _ hx))
          (List.pairwise_cons.mp hpw).2

theorem backtrack_iters_nil (fuel : Nat) (r : R) : backtrack_iters shc fuel r [] = 0 := by
  cases fuel <;> rfl

theorem backtrack_iters_succ_cons {f : Nat} {r : R} {b : Board} {rest : List Board} :
    backtrack_iters shc (f + 1) r (b :: rest) =
      if b.is_valid then
        match iter_next_boards shc r b with
        | .error _ => 1
        | .ok (children, r') => 1 + backtrack_iters shc f r' (children.reverse ++ rest)
      else 1 + backtrack_iters shc f r rest := rfl

/-- The number of loop iterations is bounded by the backlog measure: the
loop always terminates. -/
theorem backtrack_iters_le (hc : ∀ r l, (shc r l).1.Perm l) :
    ∀ (fuel : Nat) (r : R) (L : List Board), backlog_measure L ≤ fuel →
      backtrack_iters shc fuel r L ≤ backlog_measure L := by
  intro fuel
  induction fuel with
  | zero =>
    intro r L hm
    cases L with
    | nil =>
      rw [backtrack_iters_nil]
      exact Nat.zero_le _
    | cons b rest =>
      rw [backlog_measure_cons] at hm
      have := bmeasure_pos b
      omega
  | succ f ih =>
    intro r L hm
    cases L with
    | nil => rw [backtrack_iters_nil]; exact Nat.zero_le _
    | cons b rest =>
      rw [backlog_measure_cons] at hm
      rw [backtrack_iters_succ_cons, backlog_measure_cons]
      by_cases hv : b.is_valid
      · rw [if_pos hv]
        obtain ⟨cs, r1, hiter⟩ := iter_next_boards_ok shc hc r b
        simp only [hiter]
        have hmeas := iter_next_boards_measure shc hc hiter
        have hm' : backlog_measure (cs.reverse ++ rest) ≤ f := by
          rw [backlog_measure_append, backlog_measure_reverse]
          omega
        have hih := ih r1 (cs.reverse ++ rest) hm'
        rw [backlog_measure_append, backlog_measure_reverse] at hih
        show 1 + backtrack_iters shc f r1 (cs.reverse ++ rest) ≤
          bmeasure b + backlog_measure rest
        omega
      · rw [if_neg hv]
        have hb := bmeasure_pos b
        have hih := ih r rest (by omega)
        show 1 + backtrack_iters shc f r rest ≤ bmeasure b + backlog_measure rest
        omega

/-- A complete well-formed board is its own single solution. -/
theorem backtrack_solutions_complete_board {b : Board} (hwf : WF b)
    (hv : b.is_valid = true) (hf : b.is_full = true) (r : R) :
    backtrack_solutions shc r b = .ok ([b], r) := by
  unfold backtrack_solutions
  obtain ⟨f, hfeq⟩ : ∃ f, backlog_measure [b] = f + 1 := by
    have := bmeasure_pos b
    refine ⟨backlog_measure [b] - 1, ?_⟩
    rw [backlog_measure_cons, backlog_measure_nil]
    omega
  rw [hfeq, backtrack_loop_succ_cons, if_pos hv]
  have hnk : b.next_keys = [] := next_keys_nil_of_full hwf hf
  have hiter : iter_next_boards shc r b = .ok ([], r) := by
    unfold iter_next_boards
    rw [hnk]
  simp only [hiter]
  have hinner : backtrack_loop shc f r ([] : List Board).reverse = .ok ([], r) :=
    backtrack_loop_nil shc f r
  simp only [List.reverse_nil, List.nil_append, backtrack_loop_nil]
  rw [if_pos hf]
  simp

end SearchLemmasB

/-! ### Canonical form of a filled mapping

Proof infrastructure (not part of the source model): sorting a dict's
entries by key gives a canonical representative of the finite map it
denotes, used to compare solution lists coming from different shuffles. -/

/-- Key order on dict entries. -/
def pairLe (p q : Coord × Char) : Prop := coordLe p.1 q.1

instance : DecidableRel pairLe := fun p q => by
  unfold pairLe
  infer_instance

instance : IsTotal (Coord × Char) pairLe :=
  ⟨fun a b => by unfold pairLe coordLe; omega⟩

instance : IsTrans (Coord × Char) pairLe :=
  ⟨fun a b c h1 h2 => by unfold pairLe coordLe at h1 h2 ⊢; omega⟩

/-- Entries sorted by key: a canonical representative of the map. -/
def canonFilled (l : List (Coord × Char)) : List (Coord × Char) :=
  List.insertionSort pairLe l

theorem keysNodup_perm {l1 l2 : List (Coord × Char)} (h : l1.Perm l2)
    (hnd : keysNodup l1) : keysNodup l2 :=
  ((h.map Prod.fst).nodup_iff).mp hnd

theorem entries_nodup {l : List (Coord × Char)} (hnd : keysNodup l) : l.Nodup :=
  List.Nodup.of_map Prod.fst hnd

/-- Dict lookup only depends on the entry set, for duplicate-free keys. -/
theorem lookup?_perm : ∀ {l1 l2 : List (Coord × Char)}, l1.Perm l2 → keysNodup l1 →
    ∀ c, lookup? l1 c = lookup? l2 c := by
  intro l1 l2 h
  induction h with
  | nil => intro _ c; rfl
  | cons p h ih =>
    intro hnd c
    show (if p.1 = c then some p.2 else _) = (if p.1 = c then some p.2 else _)
    by_cases hp : p.1 = c
    · rw [if_pos hp, if_pos hp]
    · rw [if_neg hp, if_neg hp]
      exact ih (List.nodup_cons.mp hnd).2 c
  | swap x y l =>
    intro hnd c
    have hnd' : (y.1 :: x.1 :: l.map Prod.fst).Nodup := hnd
    have hxy : y.1 ≠ x.1 := by
      have := (List.nodup_cons.mp hnd').1
      intro hh
      exact this (by rw [hh]; exact List.mem_cons_self _ _)
    by_cases hy : y.1 = c <;> by_cases hx : x.1 = c
    · exact absurd (hy.trans hx.symm) hxy
    · simp [lookup?, hy, hx]
    · simp [lookup?, hy, hx]
    · simp [lookup?, hy, hx]
  | trans h1 h2 ih1 ih2 =>
    intro hnd c
    rw [ih1 hnd c, ih2 (keysNodup_perm h1 hnd) c]

theorem coordLe_antisymm {a b : Coord} (h1 : coordLe a b) (h2 : coordLe b a) : a = b := by
  obtain ⟨a1, a2⟩ := a
  obtain ⟨b1, b2⟩ := b
  unfold coordLe at h1 h2
  simp only [Prod.mk.injEq]
  omega

/-- Two key-sorted dicts with duplicate-free keys and the same entries are
equal. -/
theorem sorted_keysNodup_ext : ∀ {l1 l2 : List (Coord × Char)},
    l1.Sorted pairLe → l2.Sorted pairLe → keysNodup l1 → keysNodup l2 →
    (∀ x, x ∈ l1 ↔ x ∈ l2) → l1 = l2 := by
  intro l1
  induction l1 with
  | nil =>
    intro l2 _ _ _ _ hmem
    cases l2 with
    | nil => rfl
    | cons q t2 =>
      exfalso
      have := (hmem q).mpr (List.mem_cons_self _ _)
      simp at this
  | cons p t1 ih =>
    intro l2 hs1 hs2 hnd1 hnd2 hmem
    cases l2 with
    | nil =>
      exfalso
      have := (hmem p).mp (List.mem_cons_self _ _)
      simp at this
    | cons q t2 =>
      have hp2 := (hmem p).mp (List.mem_cons_self _ _)
      have hq1 := (hmem q).mpr (List.mem_cons_self _ _)
      have hkey1 : p.1 ∉ keysOf t1 := (List.nodup_cons.mp hnd1).1
      have hkey2 : q.1 ∉ keysOf t2 := (List.nodup_cons.mp hnd2).1
      have hpq : p = q := by
        rcases List.mem_cons.mp hp2 with h1 | h1
        · exact h1
        · rcases List.mem_cons.mp hq1 with h2 | h2
          · exact h2.symm
          · -- p deeper in l2 and q deeper in l1: keys must coincide, impossible
            exfalso
            have hle1 : pairLe q p := (List.pairwise_cons.mp hs2).1 p h1
            have hle2 : pairLe p q := (List.pairwise_cons.mp hs1).1 q h2
            have : p.1 = q.1 := coordLe_antisymm hle2 hle1
            exact hkey1 (this ▸ List.mem_map.mpr ⟨q, h2, rfl⟩)
      subst hpq
      have htail : ∀ x, x ∈ t1 ↔ x ∈ t2 := by
        intro x
        constructor
        · intro hx
          rcases List.mem_cons.mp ((hmem x).mp (List.mem_cons_of_mem _ hx)) with h1 | h1
          · exfalso
            exact hkey1 (List.mem_map.mpr ⟨x, hx, by rw [h1]⟩)
          · exact h1
        · intro hx
          rcases List.mem_cons.mp ((hmem x).mpr (List.mem_cons_of_mem _ hx)) with h1 | h1
          · exfalso
            exact hkey2 (List.mem_map.mpr ⟨x, hx, by rw [h1]⟩)
          · exact h1
      rw [ih (List.pairwise_cons.mp hs1).2 (List.pairwise_cons.mp hs2).2
        (List.nodup_cons.mp hnd1).2 (List.nodup_cons.mp hnd2).2 htail]

theorem canonFilled_perm (l : List (Coord × Char)) : (canonFilled l).Perm l :=
  List.perm_insertionSort pairLe l

theorem canonFilled_sorted (l : List (Coord × Char)) : (canonFilled l).Sorted pairLe :=
  List.sorted_insertionSort pairLe l

/-- Two dicts denote the same map iff their canonical forms are equal. -/
theorem canonFilled_eq_iff_mapEq {f g : List (Coord × Char)}
    (hf : keysNodup f) (hg : keysNodup g) :
    canonFilled f = canonFilled g ↔ mapEq f g := by
  have hcf : keysNodup (canonFilled f) := keysNodup_perm (canonFilled_perm f).symm hf
  have hcg : keysNodup (canonFilled g) := keysNodup_perm (canonFilled_perm g).symm hg
  constructor
  · intro h c
    calc lookup? f c = lookup? (canonFilled f) c :=
          (lookup?_perm (canonFilled_perm f) hcf c).symm
      _ = lookup? (canonFilled g) c := by rw [h]
      _ = lookup? g c := lookup?_perm (canonFilled_perm g) hcg c
  · intro hme
    refine sorted_keysNodup_ext (canonFilled_sorted f) (canonFilled_sorted g) hcf hcg ?_
    intro x
    rw [(canonFilled_perm f).mem_iff, (canonFilled_perm g).mem_iff]
    constructor
    · intro hx
      have : lookup? f x.1 = some x.2 := mem_lookup? hf hx
      rw [hme x.1] at this
      exact lookup?_mem this
    · intro hx
      have : lookup? g x.1 = some x.2 := mem_lookup? hg hx
      rw [← hme x.1] at this
      exact lookup?_mem this

/-- One direction of solution-set agreement between two solver runs over
possibly different shuffle sources: every canonical solution map found by
the first run is found by the second. -/
theorem canon_sols_subset {R1 R2 : Type}
    (shc1 : R1 → List Char → List Char × R1) (shc2 : R2 → List Char → List Char × R2)
    (hc2 : ∀ r l, (shc2 r l).1.Perm l) {b : Board} (hwf : WF b)
    {r1 r1' : R1} {out1 : List Board}
    (h1 : backtrack_solutions shc1 r1 b = .ok (out1, r1'))
    {r2 r2' : R2} {out2 : List Board}
    (h2 : backtrack_solutions shc2 r2 b = .ok (out2, r2')) :
    ∀ z ∈ out1.map (fun y => canonFilled y.filled),
      z ∈ out2.map (fun y => canonFilled y.filled) := by
  unfold backtrack_solutions at h1 h2
  have hWFb : ∀ x ∈ [b], WF x := by
    intro x hx
    rw [List.mem_singleton.mp hx]
    exact hwf
  intro z hz
  obtain ⟨y, hy, hyz⟩ := List.mem_map.mp hz
  obtain ⟨hyv, hyf, x, hx, hshape, hsubm⟩ :=
    backtrack_loop_sound shc1 _ r1 [b] out1 r1' h1 y hy
  rw [List.mem_singleton.mp hx] at hshape hsubm
  have hywf : WF y := backtrack_loop_WF shc1 _ r1 [b] out1 r1' h1 hWFb y hy
  obtain ⟨y2, hy2, hy2shape, hy2me⟩ := backtrack_loop_complete shc2 hc2
    (backlog_measure [b]) r2 [b] b y (le_refl _) (List.mem_singleton.mpr rfl)
    hwf hshape hsubm hywf hyf hyv out2 r2' h2
  refine List.mem_map.mpr ⟨y2, hy2, ?_⟩
  rw [← hyz]
  exact (canonFilled_eq_iff_mapEq (backtrack_loop_WF shc2 _ r2 [b] out2 r2' h2 hWFb
    y2 hy2).2.2.1 hywf.2.2.1).mpr hy2me

/-- The canonical solution maps of one solver run are pairwise distinct. -/
theorem canon_sols_nodup {R1 : Type} (shc1 : R1 → List Char → List Char × R1)
    (hc1 : ∀ r l, (shc1 r l).1.Perm l) {b : Board} (hwf : WF b)
    {r1 r1' : R1} {out1 : List Board}
    (h1 : backtrack_solutions shc1 r1 b = .ok (out1, r1')) :
    (out1.map (fun y => canonFilled y.filled)).Nodup := by
  unfold backtrack_solutions at h1
  have hWFb : ∀ x ∈ [b], WF x := by
    intro x hx
    rw [List.mem_singleton.mp hx]
    exact hwf
  have hsymb : ∀ x ∈ [b], x.symbols.Nodup := by
    intro x hx
    rw [List.mem_singleton.mp hx]
    exact hwf.1
  have hpair := backtrack_loop_pairwise shc1 hc1 _ r1 [b] out1 r1' h1 hsymb
    (List.pairwise_singleton _ _)
  have hpcanon : out1.Pairwise
      (fun y1 y2 => canonFilled y1.filled ≠ canonFilled y2.filled) := by
    refine hpair.imp_of_mem ?_
    intro y1 y2 h1m h2m hne hceq
    exact hne ((canonFilled_eq_iff_mapEq
      (backtrack_loop_WF shc1 _ r1 [b] out1 r1' h1 hWFb y1 h1m).2.2.1
      (backtrack_loop_WF shc1 _ r1 [b] out1 r1' h1 hWFb y2 h2m).2.2.1).mp hceq)
  unfold List.Nodup
  exact List.pairwise_map.mpr hpcanon

/-- Although two (possibly different) shuffles enumerate the solutions of a
board in different orders, they find the same number of them: the number of
solutions is a property of the board. -/
theorem backtrack_solutions_length_invariant {R1 R2 : Type}
    (shc1 : R1 → List Char → List Char × R1) (shc2 : R2 → List Char → List Char × R2)
    (hc1 : ∀ r l, (shc1 r l).1.Perm l) (hc2 : ∀ r l, (shc2 r l).1.Perm l)
    {b : Board} (hwf : WF b) {r1 r1' : R1} {out1 : List Board}
    (h1 : backtrack_solutions shc1 r1 b = .ok (out1, r1'))
    {r2 r2' : R2} {out2 : List Board}
    (h2 : backtrack_solutions shc2 r2 b = .ok (out2, r2')) :
    out1.length = out2.length := by
  have s1 := (canon_sols_nodup shc1 hc1 hwf h1).subperm
    (fun z hz => canon_sols_subset shc1 shc2 hc2 hwf h1 h2 z hz)
  have s2 := (canon_sols_nodup shc2 hc2 hwf h2).subperm
    (fun z hz => canon_sols_subset shc2 shc1 hc1 hwf h2 h1 z hz)
  have l1 := s1.length_le
  have l2 := s2.length_le
  rw [List.length_map, List.length_map] at l1 l2
  omega

/-! ### Drilling engine lemmas -/

theorem dmeasure_pos (b : Board) : 1 ≤ dmeasure b :=
  Nat.factorial_pos _

theorem dbacklog_measure_nil : dbacklog_measure [] = 0 := rfl

theorem dbacklog_measure_cons {b : Board} {L : List Board} :
    dbacklog_measure (b :: L) = dmeasure b + dbacklog_measure L := by
  simp [dbacklog_measure]

theorem dbacklog_measure_append {L1 L2 : List Board} :
    dbacklog_measure (L1 ++ L2) = dbacklog_measure L1 + dbacklog_measure L2 := by
  simp [dbacklog_measure]

theorem dbacklog_measure_reverse {L : List Board} :
    dbacklog_measure L.reverse = dbacklog_measure L := by
  unfold dbacklog_measure
  rw [List.map_reverse, List.sum_reverse]

theorem submap_length_le {f g : List (Coord × Char)} (hsub : Submap f g)
    (hndf : keysNodup f) : f.length ≤ g.length := by
  have hsubset : keysOf f ⊆ keysOf g := by
    intro k hk
    obtain ⟨v, hv⟩ := Option.isSome_iff_exists.mp (lookup?_isSome_iff.mpr hk)
    exact lookup?_isSome_iff.mp (by rw [hsub k v hv]; rfl)
  have := (hndf.subperm hsubset).length_le
  rw [keysOf_length, keysOf_length] at this
  exact this

/-- Properties of a board with one filled field removed. -/
theorem remove_child_spec {x : Board} {k : Coord} (hwf : WF x)
    (hk : k ∈ keysOf x.filled) :
    x.copy_and_remove k = .ok { x with filled := removeKey x.filled k } ∧
      SameShape { x with filled := removeKey x.filled k } x ∧
      Submap (removeKey x.filled k) x.filled ∧
      WF { x with filled := removeKey x.filled k } ∧
      (removeKey x.filled k).length + 1 = x.filled.length := by
  have hsome : (lookup? x.filled k).isSome := lookup?_isSome_iff.mpr hk
  refine ⟨copy_and_remove_eq_ok hsome, ⟨rfl, rfl, rfl, rfl, rfl⟩, ?_, ?_, removeKey_length hsome⟩
  · intro c v hc
    by_cases hck : c = k
    · exfalso
      rw [hck, removeKey_lookup_self hwf.2.2.1] at hc
      simp at hc
    · rw [← removeKey_lookup_ne hck]
      exact hc
  · refine ⟨hwf.1, hwf.2.1, removeKey_keysNodup hwf.2.2.1, ?_⟩
    intro p hp
    exact hwf.2.2.2 p (removeKey_subset p hp)

section SearchLemmasD

variable {R : Type} (shc : R → List Char → List Char × R) (shk : R → List Coord → List Coord × R)

theorem drill_loop_nil (fuel : Nat) (r : R) (minb : Board) (cutoff : ℚ) :
    drill_loop shc shk fuel r [] minb cutoff = .ok (minb, r) := by
  cases fuel <;> rfl

theorem drill_loop_succ_cons {f : Nat} {r : R} {board minb : Board}
    {rest : List Board} {cutoff : ℚ} :
    drill_loop shc shk (f + 1) r (board :: rest) minb cutoff =
      match has_unique_solution shc r board with
      | .error e => .error e
      | .ok (false, r') => drill_loop shc shk f r' rest minb cutoff
      | .ok (true, r') =>
        if board.filled.length < minb.filled.length ∧ fillness board ≤ cutoff then
          .ok (board, r')
        else
          match mapExcept (fun c => board.copy_and_remove c)
              (shk r' board.get_filled_fields).1 with
          | .error e => .error e
          | .ok children =>
            drill_loop shc shk f (shk r' board.get_filled_fields).2
              (children.reverse ++ rest)
              (if board.filled.length < minb.filled.length then board else minb) cutoff
      := rfl

/-- `has_unique_solution` in terms of the solution list. -/
theorem hus_cases {r r' : R} {b : Board} {out : List Board}
    (h : backtrack_solutions shc r b = .ok (out, r')) :
    (out = [] → has_unique_solution shc r b = .error .stopIteration) ∧
      (out.length = 1 → has_unique_solution shc r b = .ok (true, r')) ∧
      (2 ≤ out.length → has_unique_solution shc r b = .ok (false, r')) := by
  unfold has_unique_solution
  rw [h]
  refine ⟨?_, ?_, ?_⟩
  · intro hnil
    subst hnil
    rfl
  · intro hlen
    cases out with
    | nil => simp at hlen
    | cons a t =>
      cases t with
      | nil => rfl
      | cons a2 t2 => simp at hlen
  · intro hlen
    cases out with
    | nil => simp at hlen
    | cons a t =>
      cases t with
      | nil => simp at hlen
      | cons a2 t2 => rfl

/-- The sub-boards of a complete board pushed by the drilling loop weigh
strictly less than the board itself. -/
theorem drill_children_measure {x : Board} {ks : List Coord}
    (hperm : ks.Perm (keysOf x.filled)) (hwf : WF x) :
    mapExcept (fun c => x.copy_and_remove c) ks =
        .ok (ks.map (fun k => { x with filled := removeKey x.filled k })) ∧
      dbacklog_measure (ks.map (fun k => { x with filled := removeKey x.filled k })) + 1 ≤
        dmeasure x := by
  have hmem : ∀ k ∈ ks, k ∈ keysOf x.filled := fun k hkk => hperm.mem_iff.mp hkk
  constructor
  · apply mapExcept_eq_map
    intro k hkk
    exact (remove_child_spec hwf (hmem k hkk)).1
  · have hlen : ks.length = x.filled.length := by
      rw [hperm.length_eq, keysOf_length]
    have hchild : ∀ z ∈ ks.map (fun k => { x with filled := removeKey x.filled k }),
        dmeasure z = Nat.factorial x.filled.length := by
      intro z hz
      obtain ⟨k, hkk, hkz⟩ := List.mem_map.mp hz
      have := (remove_child_spec hwf (hmem k hkk)).2.2.2.2
      unfold dmeasure
      rw [← hkz]
      show Nat.factorial ((removeKey x.filled k).length + 1) = _
      rw [this]
    have hsum : dbacklog_measure (ks.map (fun k => { x with filled := removeKey x.filled k })) =
        ks.length * Nat.factorial x.filled.length := by
      unfold dbacklog_measure
      rw [List.map_map]
      have : ∀ z ∈ ks.map ((fun z => dmeasure z) ∘
          (fun k => { x with filled := removeKey x.filled k })), z = Nat.factorial x.filled.length := by
        intro z hz
        obtain ⟨k, hkk, hkz⟩ := List.mem_map.mp hz
        rw [← hkz]
        exact hchild _ (List.mem_map.mpr ⟨k, hkk, rfl⟩)
      rw [List.eq_replicate_of_mem this]
      rw [List.sum_replicate, List.length_map, smul_eq_mul]
    rw [hsum, hlen]
    unfold dmeasure
    rw [Nat.factorial_succ]
    have := Nat.factorial_pos x.filled.length
    have hmul : x.filled.length * Nat.factorial x.filled.length + Nat.factorial x.filled.length =
        (x.filled.length + 1) * Nat.factorial x.filled.length := by ring
    omega

/-- Main invariant of the drilling loop, for a complete well-formed initial
board: the loop terminates with `.ok`, and the returned board is a
uniquely-solvable sub-board of the initial board. -/
theorem drill_loop_spec (hc : ∀ r l, (shc r l).1.Perm l)
    (hk : ∀ r l, (shk r l).1.Perm l) :
    ∀ (fuel : Nat) (r : R) (L : List Board) (minb : Board) (cutoff : ℚ) (binit : Board),
      dbacklog_measure L ≤ fuel →
      (∀ x ∈ L, SameShape x binit ∧ Submap x.filled binit.filled ∧ WF x) →
      SameShape minb binit → Submap minb.filled binit.filled → WF minb →
      (∀ r0 : R, ∃ out r0', backtrack_solutions shc r0 minb = .ok (out, r0') ∧
        out.length = 1) →
      WF binit → binit.is_full = true → binit.is_valid = true →
      ∃ res r', drill_loop shc shk fuel r L minb cutoff = .ok (res, r') ∧
        SameShape res binit ∧ Submap res.filled binit.filled ∧ WF res ∧
        (∀ r0 : R, ∃ out r0', backtrack_solutions shc r0 res = .ok (out, r0') ∧
          out.length = 1) := by
  intro fuel
  induction fuel with
  | zero =>
    intro r L minb cutoff binit hm hL hms hmsub hmwf hmu hbwf hbf hbv
    cases L with
    | nil => exact ⟨minb, r, drill_loop_nil shc shk 0 r minb cutoff, hms, hmsub, hmwf, hmu⟩
    | cons x rest =>
      exfalso
      rw [dbacklog_measure_cons] at hm
      have := dmeasure_pos x
      omega
  | succ f ih =>
    intro r L minb cutoff binit hm hL hms hmsub hmwf hmu hbwf hbf hbv
    cases L with
    | nil => exact ⟨minb, r, drill_loop_nil shc shk _ r minb cutoff, hms, hmsub, hmwf, hmu⟩
    | cons x rest =>
      obtain ⟨hxs, hxsub, hxwf⟩ := hL x (List.mem_cons_self _ _)
      rw [dbacklog_measure_cons] at hm
      obtain ⟨outx, rx, hsolx⟩ :=
        backtrack_loop_ok shc hc (backlog_measure [x]) r [x] (le_refl _)
      have hsolx' : backtrack_solutions shc r x = .ok (outx, rx) := hsolx
      have hne : outx ≠ [] := by
        obtain ⟨y, hy, _, _⟩ := backtrack_loop_complete shc hc
          (backlog_measure [x]) r [x] x binit (le_refl _)
          (List.mem_singleton.mpr rfl) hxwf hxs hxsub hbwf hbf hbv outx rx hsolx
        intro hcon
        rw [hcon] at hy
        simp at hy
      have hcase := hus_cases shc hsolx'
      rw [drill_loop_succ_cons]
      cases outx with
      | nil => exact absurd rfl hne
      | cons y0 t =>
        cases t with
        | nil =>
          have hhus : has_unique_solution shc r x = .ok (true, rx) := hcase.2.1 rfl
          simp only [hhus]
          have hux : ∀ r0 : R, ∃ out r0', backtrack_solutions shc r0 x = .ok (out, r0') ∧
              out.length = 1 := by
            intro r0
            obtain ⟨out0, r0', h0⟩ :=
              backtrack_loop_ok shc hc (backlog_measure [x]) r0 [x] (le_refl _)
            have h0' : backtrack_solutions shc r0 x = .ok (out0, r0') := h0
            refine ⟨out0, r0', h0', ?_⟩
            have := backtrack_solutions_length_invariant shc shc hc hc hxwf h0' hsolx'
            simpa using this
          by_cases hcond : x.filled.length < minb.filled.length ∧ fillness x ≤ cutoff
          · rw [if_pos hcond]
            exact ⟨x, rx, rfl, hxs, hxsub, hxwf, hux⟩
          · rw [if_neg hcond]
            have hperm : (shk rx x.get_filled_fields).1.Perm (keysOf x.filled) :=
              hk rx x.get_filled_fields
            obtain ⟨hmapok, hmeas⟩ := drill_children_measure hperm hxwf
            simp only [hmapok]
            have hchild : ∀ z ∈ (shk rx x.get_filled_fields).1.map
                (fun k => { x with filled := removeKey x.filled k }),
                SameShape z binit ∧ Submap z.filled binit.filled ∧ WF z := by
              intro z hz
              obtain ⟨k, hkk, hkz⟩ := List.mem_map.mp hz
              have hkmem : k ∈ keysOf x.filled := hperm.mem_iff.mp hkk
              obtain ⟨_, hshape, hsub2, hwf2, _⟩ := remove_child_spec hxwf hkmem
              rw [← hkz]
              exact ⟨SameShape_trans hshape hxs, Submap_trans hsub2 hxsub, hwf2⟩
            have hL' : ∀ z ∈ ((shk rx x.get_filled_fields).1.map
                (fun k => { x with filled := removeKey x.filled k })).reverse ++ rest,
                SameShape z binit ∧ Submap z.filled binit.filled ∧ WF z := by
              intro z hz
              rcases List.mem_append.mp hz with h1 | h1
              · exact hchild z (List.mem_reverse.mp h1)
              · exact hL z (List.mem_cons_of_mem _ h1)
            have hm' : dbacklog_measure (((shk rx x.get_filled_fields).1.map
                (fun k => { x with filled := removeKey x.filled k })).reverse ++ rest) ≤ f := by
              rw [dbacklog_measure_append, dbacklog_measure_reverse]
              omega
            by_cases hlt : x.filled.length < minb.filled.length
            · rw [if_pos hlt]
              exact ih (shk rx x.get_filled_fields).2 _ x cutoff binit hm' hL'
                hxs hxsub hxwf hux hbwf hbf hbv
            · rw [if_neg hlt]
              exact ih (shk rx x.get_filled_fields).2 _ minb cutoff binit hm' hL'
                hms hmsub hmwf hmu hbwf hbf hbv
        | cons y1 t2 =>
          have hhus : has_unique_solution shc r x = .ok (false, rx) := by
            apply hcase.2.2
            simp
          simp only [hhus]
          refine ih rx rest minb cutoff binit ?_ ?_ hms hmsub hmwf hmu hbwf hbf hbv
          · have := dmeasure_pos x
            omega
          · intro z hz
            exact hL z (List.mem_cons_of_mem _ hz)

end SearchLemmasD

/-! ### Concrete instances

A concrete shuffle model (the identity permutation with trivial state), a
toy stateful shuffle, and the concrete boards used to settle the claims on
explicit inputs. -/

/-- Identity shuffle on symbol lists: a legitimate instance of the PRNG
model (`random.shuffle` may return the input order). -/
def idShc : Unit → List Char → List Char × Unit := fun r l => (l, r)

/-- Identity shuffle on coordinate lists. -/
def idShk : Unit → List Coord → List Coord × Unit := fun r l => (l, r)

theorem idShc_perm : ∀ (r : Unit) (l : List Char), (idShc r l).1.Perm l :=
  fun _ l => List.Perm.refl l

theorem idShk_perm : ∀ (r : Unit) (l : List Coord), (idShk r l).1.Perm l :=
  fun _ l => List.Perm.refl l

/-- A toy stateful shuffle: reverses on odd states, counts calls; a
legitimate instance of the PRNG model with a nontrivially evolving state. -/
def toyShc : Nat → List Char → List Char × Nat :=
  fun n l => (if n % 2 = 0 then l else l.reverse, n + 1)

/-- Toy stateful shuffle on coordinate lists. -/
def toyShk : Nat → List Coord → List Coord × Nat :=
  fun n l => (if n % 2 = 0 then l else l.reverse, n + 1)

theorem toyShc_perm : ∀ (n : Nat) (l : List Char), (toyShc n l).1.Perm l := by
  intro n l
  unfold toyShc
  by_cases h : n % 2 = 0
  · rw [if_pos h]
  · rw [if_neg h]
    exact List.reverse_perm l

theorem toyShk_perm : ∀ (n : Nat) (l : List Coord), (toyShk n l).1.Perm l := by
  intro n l
  unfold toyShk
  by_cases h : n % 2 = 0
  · rw [if_pos h]
  · rw [if_neg h]
    exact List.reverse_perm l

/-- A board with no solution: a single length-2 row segment over a one-symbol
alphabet. -/
def zeroSolBoard : Board :=
  ⟨1, 2, [⟨[(0, 0), (0, 1)]⟩], ['1'], [(0, 0), (0, 1)], []⟩

/-- A fully solved 2×2 Latin square over symbols {1, 2}: two row segments
and two column segments. -/
def complete2x2 : Board :=
  ⟨2, 2,
   [⟨[(0, 0), (0, 1)]⟩, ⟨[(1, 0), (1, 1)]⟩, ⟨[(0, 0), (1, 0)]⟩, ⟨[(0, 1), (1, 1)]⟩],
   ['1', '2'], [(0, 0), (0, 1), (1, 0), (1, 1)],
   [((0, 0), '1'), ((0, 1), '2'), ((1, 0), '2'), ((1, 1), '1')]⟩

/-- `complete2x2` with the field `(1,1)` drilled out; the board the drilling
engine returns on `complete2x2` with cutoff 1. -/
def drilled3 : Board :=
  { complete2x2 with filled := [((0, 0), '1'), ((0, 1), '2'), ((1, 0), '2')] }

/-- The template of Scenario A, `"AB" / "AB"`, as split lines. -/
def tplAB : List (List Char) := [['A', 'B'], ['A', 'B']]

/-- The board compiled from `tplAB` with symbols `{1, 2}`. -/
def boardAB : Board :=
  match board_from_template tplAB ['1', '2'] with
  | .ok b => b
  | .error _ => mkBoard 0 0 [] []

/-- Two sequential `generate` runs over the same template with the toy
shuffle, threading the PRNG state from the first run into the second —
"repeated generator runs" within one process. -/
def c6RunTwice : Except Err (Board × Board) :=
  match generate toyShc toyShk 0 tplAB ['1', '2'] 1 with
  | .error e => .error e
  | .ok (b1, rA) =>
    match generate toyShc toyShk rA tplAB ['1', '2'] 1 with
    | .error e => .error e
    | .ok (b2, _) => .ok (b1, b2)

/-! ### The claims -/

/-- Claim C1, counterexample: on a board with zero solutions,
`has_unique_solution` does not return the boolean `false` — the first
`next(it)` stands outside the `try`, so its `StopIteration` propagates as a
raised error.  This refutes "returns false (a normal boolean result, not a
raised error) ... when the board has zero solutions". -/
theorem c1_counterexample :
    backtrack_solutions idShc () zeroSolBoard = .ok ([], ()) ∧
      has_unique_solution idShc () zeroSolBoard = .error .stopIteration ∧
      ¬ has_unique_solution idShc () zeroSolBoard = .ok (false, ()) := by
  refine ⟨by decide, by decide, by decide⟩

/-- Claim C1 (amended): `has_unique_solution` returns true iff the solution
sequence has exactly one element and false iff it has two or more, but on a
board with zero solutions it raises `StopIteration` instead of returning. -/
theorem c1_amended {R : Type} (shc : R → List Char → List Char × R)
    {r r' : R} {b : Board} {sols : List Board}
    (h : backtrack_solutions shc r b = .ok (sols, r')) :
    (has_unique_solution shc r b = .ok (true, r') ↔ sols.length = 1) ∧
      (has_unique_solution shc r b = .ok (false, r') ↔ 2 ≤ sols.length) ∧
      (has_unique_solution shc r b = .error .stopIteration ↔ sols.length = 0) := by
  unfold has_unique_solution
  rw [h]
  cases sols with
  | nil => simp
  | cons a t =>
    cases t with
    | nil => simp
    | cons a2 t2 =>
      refine ⟨by simp, ?_, by simp⟩
      simp only [List.length_cons]
      constructor
      · intro _
        omega
      · intro _
        trivial

/-- Witness for C1 (amended) at a concrete input: the complete 2×2 board has
the one-element solution sequence `[complete2x2]`. -/
theorem c1_witness :
    (has_unique_solution idShc () complete2x2 = .ok (true, ()) ↔
        ([complete2x2] : List Board).length = 1) ∧
      (has_unique_solution idShc () complete2x2 = .ok (false, ()) ↔
        2 ≤ ([complete2x2] : List Board).length) ∧
      (has_unique_solution idShc () complete2x2 = .error .stopIteration ↔
        ([complete2x2] : List Board).length = 0) :=
  c1_amended idShc (by decide)

/-- Claim C5: every board yielded by the backtracking solver is valid and
full, and extends the input board — it agrees with the input on every
coordinate the input had filled (`Submap`), never removing or changing an
existing fill, and shares its shape. -/
theorem c5_solver_sound {R : Type} (shc : R → List Char → List Char × R)
    (r r' : R) (b : Board) (out : List Board) (y : Board)
    (h : backtrack_solutions shc r b = .ok (out, r')) (hy : y ∈ out) :
    y.is_valid = true ∧ y.is_full = true ∧ SameShape b y ∧ Submap b.filled y.filled := by
  obtain ⟨h1, h2, x, hx, hsh, hsub⟩ :=
    backtrack_loop_sound shc (backlog_measure [b]) r [b] out r' h y hy
  rw [List.mem_singleton.mp hx] at hsh hsub
  exact ⟨h1, h2, hsh, hsub⟩

/-- Witness for C5 at a concrete input: the sole solution of the already
complete 2×2 board. -/
theorem c5_witness :
    complete2x2.is_valid = true ∧ complete2x2.is_full = true ∧
      SameShape complete2x2 complete2x2 ∧
      Submap complete2x2.filled complete2x2.filled :=
  c5_solver_sound idShc () () complete2x2 [complete2x2] complete2x2 (by decide)
    (List.mem_singleton.mpr rfl)

/-- The data invariant of claim C8: `filled` maps in-play coordinates to
alphabet symbols. -/
def FilledInv (b : Board) : Prop :=
  ∀ p ∈ b.filled, p.1 ∈ b.all_coords ∧ p.2 ∈ b.symbols

instance : DecidablePred FilledInv := fun b => by
  unfold FilledInv
  infer_instance

/-- Claim C8: the fill and remove operations preserve the data invariant; a
successful fill never overwrites (the coordinate was unfilled), and each of
the three violations is rejected with its error. -/
theorem c8_invariant (b : Board) (c : Coord) (s : Char) (hinv : FilledInv b) :
    (∀ b', b.copy_and_set c s = .ok b' → FilledInv b' ∧ lookup? b.filled c = none) ∧
      (∀ b', b.copy_and_remove c = .ok b' → FilledInv b') ∧
      ((lookup? b.filled c).isSome →
        b.copy_and_set c s = .error .coordinateAlreadyFilled) ∧
      (lookup? b.filled c = none → c ∉ b.all_coords →
        b.copy_and_set c s = .error .coordinateOutOfBoard) ∧
      (lookup? b.filled c = none → c ∈ b.all_coords → s ∉ b.symbols →
        b.copy_and_set c s = .error .invalidSymbol) := by
  refine ⟨?_, ?_, ?_, ?_, ?_⟩
  · intro b' hb'
    obtain ⟨h1, h2, h3, h4⟩ := copy_and_set_ok_inv hb'
    refine ⟨?_, h1⟩
    intro p hp
    rw [h4] at hp
    rcases List.mem_append.mp hp with hm | hm
    · have := hinv p hm
      rw [h4]
      exact this
    · rw [List.mem_singleton] at hm
      rw [h4, hm]
      exact ⟨h2, h3⟩
  · intro b' hb'
    obtain ⟨h1, h2⟩ := copy_and_remove_ok_inv hb'
    intro p hp
    rw [h2] at hp
    have := hinv p (removeKey_subset p hp)
    rw [h2]
    exact this
  · intro hsome
    unfold Board.copy_and_set
    rw [if_pos hsome]
  · intro hnone hout
    unfold Board.copy_and_set
    rw [if_neg (by rw [hnone]; simp), if_pos hout]
  · intro hnone hin hsym
    unfold Board.copy_and_set
    rw [if_neg (by rw [hnone]; simp), if_neg (by simp [hin]), if_pos hsym]

/-- Witness for C8 at a concrete input. -/
theorem c8_witness :
    (∀ b', complete2x2.copy_and_set (0, 0) '1' = .ok b' →
      FilledInv b' ∧ lookup? complete2x2.filled (0, 0) = none) ∧
      (∀ b', complete2x2.copy_and_remove (0, 0) = .ok b' → FilledInv b') ∧
      ((lookup? complete2x2.filled (0, 0)).isSome →
        complete2x2.copy_and_set (0, 0) '1' = .error .coordinateAlreadyFilled) ∧
      (lookup? complete2x2.filled (0, 0) = none → (0, 0) ∉ complete2x2.all_coords →
        complete2x2.copy_and_set (0, 0) '1' = .error .coordinateOutOfBoard) ∧
      (lookup? complete2x2.filled (0, 0) = none → (0, 0) ∈ complete2x2.all_coords →
        '1' ∉ complete2x2.symbols →
        complete2x2.copy_and_set (0, 0) '1' = .error .invalidSymbol) :=
  c8_invariant complete2x2 (0, 0) '1' (by decide)

/-- Claim C9: filling an already-filled coordinate raises the already-filled
error, whatever the symbol, and no new board value is produced.  The
embedding is pure — as in the source, which raises before constructing
anything and never mutates the receiver — so the original board, its filled
mapping, segments, symbols and dimensions are untouched by construction. -/
theorem c9_already_filled (b : Board) (c : Coord) (s v : Char)
    (h : lookup? b.filled c = some v) :
    b.copy_and_set c s = .error .coordinateAlreadyFilled ∧
      ∀ b', b.copy_and_set c s ≠ .ok b' := by
  have hsome : (lookup? b.filled c).isSome := by rw [h]; rfl
  constructor
  · unfold Board.copy_and_set
    rw [if_pos hsome]
  · intro b' hb'
    unfold Board.copy_and_set at hb'
    rw [if_pos hsome] at hb'
    exact absurd hb' (by simp)

/-- Witness for C9 at a concrete input. -/
theorem c9_witness :
    complete2x2.copy_and_set (0, 0) '2' = .error .coordinateAlreadyFilled ∧
      ∀ b', complete2x2.copy_and_set (0, 0) '2' ≠ .ok b' :=
  c9_already_filled complete2x2 (0, 0) '2' '1' (by decide)

/-- Claim C10: the solver's solution sequence is duplicate-free — no two
yielded boards have the same filled mapping (`mapEq`, dict equality). -/
theorem c10_no_duplicates {R : Type} (shc : R → List Char → List Char × R)
    (hc : ∀ r0 l, (shc r0 l).1.Perm l) (r r' : R) (b : Board) (out : List Board)
    (hsym : b.symbols.Nodup) (h : backtrack_solutions shc r b = .ok (out, r')) :
    out.Pairwise (fun y1 y2 => ¬ mapEq y1.filled y2.filled) :=
  backtrack_loop_pairwise shc hc (backlog_measure [b]) r [b] out r' h
    (fun x hx => by rw [List.mem_singleton.mp hx]; exact hsym)
    (List.pairwise_singleton _ _)

/-- Witness for C10 at a concrete input. -/
theorem c10_witness :
    ([] : List Board).Pairwise (fun y1 y2 => ¬ mapEq y1.filled y2.filled) :=
  c10_no_duplicates idShc idShc_perm () () zeroSolBoard [] (by decide) (by decide)

/-- Claim C2, counterexample: drilling the fully solved (valid and full) 2×2
board with cutoff 1.0 does NOT return the original board — the cutoff test
sits inside the strict-improvement branch, which the initial board cannot
enter, so one removal is explored first and a 3-cell board is returned. -/
theorem c2_counterexample :
    complete2x2.is_valid = true ∧ complete2x2.is_full = true ∧
      drill_board idShc idShk () complete2x2 1 ≠ .ok (complete2x2, ()) ∧
      drill_board idShc idShk () complete2x2 1 = .ok (drilled3, ()) ∧
      drilled3.filled.length = 3 ∧ complete2x2.filled.length = 4 := by
  refine ⟨by decide, by decide, by decide, by decide, by decide, by decide⟩

/-- Claim C2 (amended): the drilling search stops at once and returns a
popped candidate exactly when that candidate still has a unique solution,
has strictly fewer filled cells than the best board so far, AND its fill
ratio is at or below the cutoff; in particular a fully solved input with
cutoff 1.0 is not returned unchanged (see `c2_counterexample`) — the first
strictly sparser uniquely solvable candidate is returned instead. -/
theorem c2_amended {R : Type} (shc : R → List Char → List Char × R)
    (shk : R → List Coord → List Coord × R) (f : Nat) (r r' : R)
    (b minb : Board) (rest : List Board) (cutoff : ℚ)
    (h1 : has_unique_solution shc r b = .ok (true, r'))
    (h2 : b.filled.length < minb.filled.length)
    (h3 : fillness b ≤ cutoff) :
    drill_loop shc shk (f + 1) r (b :: rest) minb cutoff = .ok (b, r') := by
  rw [drill_loop_succ_cons]
  simp only [h1]
  rw [if_pos ⟨h2, h3⟩]

/-- Witness for C2 (amended) at a concrete input. -/
theorem c2_witness :
    drill_loop idShc idShk 1 () [drilled3] complete2x2 1 = .ok (drilled3, ()) :=
  c2_amended idShc idShk 0 () () drilled3 complete2x2 [] 1 (by decide) (by decide)
    (by decide)

/-- Claim C3, counterexample: compiling the template `"AB" / "AB"` with
symbols `{1, 2}` yields 6 segments, not 4 — the glyphs `A` and `B` are
grouped into segments like any other non-empty glyph; the compiler never
checks whether a glyph is a symbol. -/
theorem c3_counterexample :
    (board_from_template tplAB ['1', '2']).map (fun b => b.segments.length) = .ok 6 ∧
      ¬ (board_from_template tplAB ['1', '2']).map (fun b => b.segments.length) =
        .ok 4 := by
  refine ⟨by decide, by decide⟩

/-- Claim C3 (amended): compiling the two-line template `"AB" / "AB"` with
symbols `{1, 2}` succeeds and produces a board with exactly 4 in-play
coordinates and exactly 6 segments — 2 row segments, 2 column segments and
2 group segments (the glyphs `A` and `B` each form a group) — each of
length 2, and solving that empty board yields exactly 2 complete boards,
under every permuting shuffle. -/
theorem c3_amended {R : Type} (shc : R → List Char → List Char × R) (r : R)
    (hc : ∀ r0 l, (shc r0 l).1.Perm l) :
    board_from_template tplAB ['1', '2'] = .ok boardAB ∧
      boardAB.all_coords.length = 4 ∧
      boardAB.segments.length = 6 ∧
      (∀ seg ∈ boardAB.segments, seg.coords.length = 2) ∧
      ∃ out r', backtrack_solutions shc r boardAB = .ok (out, r') ∧ out.length = 2 := by
  refine ⟨by decide, by decide, by decide, by decide, ?_⟩
  obtain ⟨out, r', hout⟩ :=
    backtrack_loop_ok shc hc (backlog_measure [boardAB]) r [boardAB] (le_refl _)
  have hout' : backtrack_solutions shc r boardAB = .ok (out, r') := hout
  refine ⟨out, r', hout', ?_⟩
  have hid : (backtrack_solutions idShc () boardAB).map (fun p => p.1.length) =
      .ok 2 := by decide
  cases hidrun : backtrack_solutions idShc () boardAB with
  | error e => rw [hidrun] at hid; simp [Except.map] at hid
  | ok p =>
    obtain ⟨outI, rI⟩ := p
    rw [hidrun] at hid
    simp only [Except.map, Except.ok.injEq] at hid
    rw [backtrack_solutions_length_invariant shc idShc hc idShc_perm (by decide)
      hout' hidrun]
    exact hid

/-- Witness for C3 (amended) at the identity shuffle. -/
theorem c3_witness :
    board_from_template tplAB ['1', '2'] = .ok boardAB ∧
      boardAB.all_coords.length = 4 ∧
      boardAB.segments.length = 6 ∧
      (∀ seg ∈ boardAB.segments, seg.coords.length = 2) ∧
      ∃ out r', backtrack_solutions idShc () boardAB = .ok (out, r') ∧
        out.length = 2 :=
  c3_amended idShc () idShc_perm

/-- Claim C4: for every complete (valid and full) well-formed input board
and every cutoff, drilling succeeds and returns a board with at most as many
filled cells as the input whose unique-solution property is true (under any
PRNG state). -/
theorem c4_drill_preserves {R : Type} (shc : R → List Char → List Char × R)
    (shk : R → List Coord → List Coord × R)
    (hc : ∀ r0 l, (shc r0 l).1.Perm l) (hk : ∀ r0 l, (shk r0 l).1.Perm l)
    (r : R) (b : Board) (cutoff : ℚ)
    (hwf : WF b) (hv : b.is_valid = true) (hf : b.is_full = true) :
    ∃ res r', drill_board shc shk r b cutoff = .ok (res, r') ∧
      res.filled.length ≤ b.filled.length ∧
      ∀ r0, ∃ r0', has_unique_solution shc r0 res = .ok (true, r0') := by
  have hub : ∀ r0 : R, ∃ out r0', backtrack_solutions shc r0 b = .ok (out, r0') ∧
      out.length = 1 := by
    intro r0
    exact ⟨[b], r0, backtrack_solutions_complete_board shc hwf hv hf r0, rfl⟩
  obtain ⟨res, r', hdrill, hshape, hsub, hreswf, hresu⟩ :=
    drill_loop_spec shc shk hc hk (dbacklog_measure [b]) r [b] b cutoff b (le_refl _)
      (fun x hx => by
        rw [List.mem_singleton.mp hx]
        exact ⟨SameShape_refl b, Submap_refl _, hwf⟩)
      (SameShape_refl b) (Submap_refl _) hwf hub hwf hf hv
  refine ⟨res, r', hdrill, submap_length_le hsub hreswf.2.2.1, ?_⟩
  intro r0
  obtain ⟨out0, r0', hsol, hlen⟩ := hresu r0
  exact ⟨r0', (hus_cases shc hsol).2.1 hlen⟩

/-- Witness for C4 at a concrete input. -/
theorem c4_witness :
    ∃ res r', drill_board idShc idShk () complete2x2 1 = .ok (res, r') ∧
      res.filled.length ≤ complete2x2.filled.length ∧
      ∀ r0, ∃ r0', has_unique_solution idShc r0 res = .ok (true, r0') :=
  c4_drill_preserves idShc idShk idShc_perm idShk_perm () complete2x2 1 (by decide)
    (by decide) (by decide)

/-- Claim C6: the generation pipeline is a pure function of the PRNG seed
state and the template — equal seeds give identical boards — while repeated
runs within one process (the state threading on from the first run, as the
process-wide generator's does) can give different boards: determinism is per
seed, not per template. -/
theorem c6_deterministic_per_seed :
    (∀ {R : Type} (shc : R → List Char → List Char × R)
      (shk : R → List Coord → List Coord × R) (r1 r2 : R)
      (t : List (List Char)) (syms : List Char) (cutoff : ℚ), r1 = r2 →
        generate shc shk r1 t syms cutoff = generate shc shk r2 t syms cutoff) ∧
      (c6RunTwice.map (fun p => decide (p.1 = p.2)) = .ok false) := by
  constructor
  · intro R shc shk r1 r2 t syms cutoff h
    rw [h]
  · decide

/-- Witness for C6 at a concrete input. -/
theorem c6_witness :
    generate toyShc toyShk 0 tplAB ['1', '2'] 1 =
        generate toyShc toyShk 0 tplAB ['1', '2'] 1 ∧
      c6RunTwice.map (fun p => decide (p.1 = p.2)) = .ok false :=
  ⟨c6_deterministic_per_seed.1 toyShc toyShk 0 0 tplAB ['1', '2'] 1 rfl,
    c6_deterministic_per_seed.2⟩

/-- Claim C7: the backtracking solver terminates on every board — with the
measure-derived fuel the loop runs to completion without exhausting it
(returning `.ok`), the number of loop iterations is bounded by
`(|alphabet| + 1) ^ (number of unfilled cells)` (depth is bounded by the
unfilled-cell count, the exponent), and the branching factor — the number of
children a state generates — is bounded by the alphabet size. -/
theorem c7_termination {R : Type} (shc : R → List Char → List Char × R)
    (hc : ∀ r0 l, (shc r0 l).1.Perm l) (r : R) (b : Board) :
    (∃ out r', backtrack_solutions shc r b = .ok (out, r')) ∧
      backtrack_iters shc (backlog_measure [b]) r [b] ≤
        (b.symbols.length + 1) ^ unfilled b ∧
      ∀ (r1 : R) (cs : List Board) (r1' : R),
        iter_next_boards shc r1 b = .ok (cs, r1') → cs.length ≤ b.symbols.length := by
  refine ⟨backtrack_loop_ok shc hc (backlog_measure [b]) r [b] (le_refl _), ?_, ?_⟩
  · have h := backtrack_iters_le shc hc (backlog_measure [b]) r [b] (le_refl _)
    have hm : backlog_measure [b] = (b.symbols.length + 1) ^ unfilled b := by
      rw [backlog_measure_cons, backlog_measure_nil]
      unfold bmeasure
      omega
    rw [hm] at h
    exact h
  · intro r1 cs r1' hiter
    rcases iter_next_boards_ok_inv shc hiter with ⟨_, hnil, _⟩ | ⟨k, ks, _, _, hm2⟩
    · rw [hnil]
      exact Nat.zero_le _
    · rw [mapExcept_ok_length hm2, (hc r1 b.symbols).length_eq]

/-- Witness for C7 at a concrete input. -/
theorem c7_witness :
    (∃ out r', backtrack_solutions idShc () complete2x2 = .ok (out, r')) ∧
      backtrack_iters idShc (backlog_measure [complete2x2]) () [complete2x2] ≤
        (complete2x2.symbols.length + 1) ^ unfilled complete2x2 ∧
      ∀ (r1 : Unit) (cs : List Board) (r1' : Unit),
        iter_next_boards idShc r1 complete2x2 = .ok (cs, r1') →
          cs.length ≤ complete2x2.symbols.length :=
  c7_termination idShc idShc_perm () complete2x2

end Sudoku
